import Mathlib

/-!
# Verification of `crypto-commons` (`p4team/crypto_commons/rsa/rsa_commons.py`)

A shallow embedding of the Python 2 source into Lean 4, together with proofs
about the embedded functions.  Conventions of the embedding:

* Python (arbitrary precision) integers become `Int`.
* Python 2 `/` on integers is floor division, embedded as `Int.fdiv`;
  Python `%` takes the sign of the divisor, embedded as `Int.fmod`
  (these agree with `Int.ediv`/`Int.emod` for positive divisors).
* Failing operations (`ZeroDivisionError` from `%`/`/` by zero, `TypeError`
  from `reduce` on an empty sequence or `pow` with a negative exponent,
  `ValueError` from `pow(x, e, 0)`, `AssertionError` from `assert`,
  `IndexError` from out-of-range subscripts) are modelled with
  `Except PyErr`; the constructor names follow the Python exception raised.
* Unbounded `while` loops become structural recursion on an explicit fuel
  argument; the fuel chosen at each call site provably dominates the number
  of iterations the Python loop performs on every input on which it
  terminates, so the embedding agrees with the source there.  The sentinel
  `PyErr.nonTermination` marks fuel exhaustion, i.e. inputs on which the
  Python loop would not have terminated within the supplied bound.
* Values of dynamic type (an object that may be an `int`, a byte string, or
  the class object `int` itself, as in `payload is not int`) are modelled by
  `PyVal`.
* The external collaborators (`bytes_to_long`, `find_divisor`,
  `get_signature`) are taken as function parameters; `multiply` (product of
  a sequence) and `gmpy2.iroot` (integer k-th root) are modelled from the
  spec's interface description.
-/

namespace RsaCommons

/-- Error outcomes of the embedded Python functions (named after the Python
exception that the source raises in that situation). -/
inductive PyErr where
  | typeError
  | zeroDivisionError
  | valueError
  | assertionError
  | indexError
  | nonTermination
  deriving DecidableEq, Repr

/-- Python `%`: raises `ZeroDivisionError` on modulus `0`, otherwise floor-mod
(the result has the sign of the divisor). -/
def pymod (a b : Int) : Except PyErr Int :=
  if b = 0 then .error .zeroDivisionError else .ok (a.fmod b)

/-- Python 2 `/` on integers: raises `ZeroDivisionError` on divisor `0`,
otherwise floor division. -/
def pyfdiv (a b : Int) : Except PyErr Int :=
  if b = 0 then .error .zeroDivisionError else .ok (a.fdiv b)

/-- Python 2 three-argument `pow(x, e, n)`: `ValueError` for `n = 0`,
`TypeError` for a negative exponent, otherwise `x ^ e mod n` with the sign
of `n`. -/
def pypow3 (x e n : Int) : Except PyErr Int :=
  if n = 0 then .error .valueError
  else if e < 0 then .error .typeError
  else .ok ((x ^ e.toNat).fmod n)

/-- Python 2 `reduce(f, l)` (no initializer): `TypeError` on an empty
sequence, otherwise the left fold of `f` seeded with the first element. -/
def pyreduce (f : Int → Int → Int) (l : List Int) : Except PyErr Int :=
  match l with
  | [] => .error .typeError
  | x :: xs => .ok (xs.foldl f x)

/-- The `while remainder:` loop of `extended_gcd`, on the absolute values of
the inputs (Python's `divmod` on non-negative integers is `Nat` div/mod).
State: `(lastremainder, remainder, lastx, x, lasty, y)`.  The remainder
strictly decreases, so `r1 + 1` fuel always suffices. -/
def egcdLoop : Nat → Nat → Nat → Int → Int → Int → Int → Nat × Int × Int
  | 0, r0, _, lx, _, ly, _ => (r0, lx, ly)
  | fuel + 1, r0, r1, lx, x, ly, y =>
    if r1 = 0 then (r0, lx, ly)
    else
      egcdLoop fuel r1 (r0 % r1) x (lx - (r0 / r1 : Nat) * x) y (ly - (r0 / r1 : Nat) * y)

/-- `extended_gcd(a, b)`: runs the Euclidean loop on `|a|`, `|b|` starting
from coefficients `x, lastx, y, lasty = 0, 1, 1, 0` and restores the signs
of the final coefficients. -/
def extended_gcd (a b : Int) : Int × Int × Int :=
  let r := egcdLoop (b.natAbs + 1) a.natAbs b.natAbs 1 0 0 1
  ((r.1 : Int), r.2.1 * (if a < 0 then -1 else 1), r.2.2 * (if b < 0 then -1 else 1))

/-- `gcd(a, b) = extended_gcd(a, b)[0]`. -/
def gcd (a b : Int) : Int :=
  (extended_gcd a b).1

/-- `gcd_multi(numbers) = reduce(gcd, numbers)`. -/
def gcd_multi (numbers : List Int) : Except PyErr Int :=
  pyreduce gcd numbers

/-- `modinv(x, y) = extended_gcd(x, y)[1] % y`. -/
def modinv (x y : Int) : Except PyErr Int :=
  pymod (extended_gcd x y).2.1 y

/-- `solve_crt(residue_and_moduli)`: the explicit CRT formula
`x = (Σ residue_i · (N / modulus_i) · modinv(N / modulus_i, modulus_i)) % N`
with `N` the product of the moduli.  Python's index loop over the three
equal-length lists `residues`, `Nxs`, `ds` is expressed with `zip`. -/
def solve_crt (residue_and_moduli : List (Int × Int)) : Except PyErr Int := do
  let moduli := residue_and_moduli.map (·.2)
  let residues := residue_and_moduli.map (·.1)
  let N ← pyreduce (· * ·) moduli
  let Nxs ← moduli.mapM (fun n => pyfdiv N n)
  let ds ← moduli.mapM (fun n => do modinv (← pyfdiv N n) n)
  let mults := (residues.zip (Nxs.zip ds)).map (fun t => t.1 * t.2.1 * t.2.2)
  let S ← pyreduce (· + ·) mults
  pymod S N

/-- A Python 2 value as passed to `rsa`/`homomorphic_blinding_rsa`: an
integer, a byte string (`str`), or the class object `int` itself (which is
what the buggy guard `payload is not int` actually compares against). -/
inductive PyVal where
  | int (n : Int)
  | bytes (bs : List Nat)
  | typeInt
  deriving DecidableEq, Repr

/-- `ensure_long(x)`: converts only byte strings (`type(x) is str`) through
the external `bytes_to_long` collaborator; everything else passes through. -/
def ensure_long (bytes_to_long : PyVal → Int) : PyVal → PyVal
  | .bytes bs => .int (bytes_to_long (.bytes bs))
  | v => v

/-- `rsa(x, exp, n) = pow(ensure_long(x), exp, n)`; applying `pow` to a
non-integer (the class object `int`) is a `TypeError`. -/
def rsa (bytes_to_long : PyVal → Int) (x : PyVal) (exp n : Int) : Except PyErr Int :=
  match ensure_long bytes_to_long x with
  | .int m => pypow3 m exp n
  | _ => .error .typeError

/-- `rsa_crt_distinct_multiprime(c, e, factors)`: Garner's algorithm.
Order of effects follows the source: the list `di` of `modinv(e, p - 1)`
first, then `m = factors[0]` (an `IndexError` on an empty list), the `tis`
loop, the `xis` powers, and the reconstruction loop. -/
def rsa_crt_distinct_multiprime (c e : Int) (factors : List Int) : Except PyErr Int := do
  let di ← factors.mapM (fun prime => modinv e (prime - 1))
  match factors, di with
  | f0 :: rest, _ :: _ => do
    let tis_m ← rest.foldlM
      (fun (acc : List Int × Int) prime => do
        let t ← modinv acc.2 prime
        pure (acc.1 ++ [t], acc.2 * prime))
      ([(-1 : Int)], f0)
    let xis ← (factors.zip di).mapM (fun pd => pypow3 c pd.2 pd.1)
    match xis with
    | x0 :: xrest =>
      let res ← (rest.zip (xrest.zip tis_m.1.tail)).foldlM
        (fun (acc : Int × Int) t3 => do
          let ri := t3.1
          let xi := t3.2.1
          let ti := t3.2.2
          let xmod ← pymod acc.1 ri
          let inner ← pymod ((xi - xmod) * ti) ri
          pure (acc.1 + acc.2 * inner, acc.2 * ri))
        (x0, f0)
      pure res.1
    | [] => .error .indexError
  | _, _ => .error .indexError

/-- One round of `hensel_lifting`'s inner loop over the current candidate
list.  Note the source uses the fixed exponents `p ** (k - 1)` and `p ** k`
in every round (not the current level). -/
def henselStep (f df : Int → Int) (p : Int) (k : Nat) (sols : List Int) :
    Except PyErr (List Int) :=
  sols.foldlM
    (fun acc n => do
      let dfr := df n
      let fr := f n
      let r ← pymod dfr p
      if r ≠ 0 then do
        let q ← pyfdiv fr (p ^ (k - 1))
        let t ← pymod (-(extended_gcd dfr p).2.1 * q) p
        pure (acc ++ [n + t * p ^ (k - 1)])
      else do
        let fm ← pymod fr (p ^ k)
        if fm = 0 then
          pure (acc ++ (List.range p.toNat).map (fun t => n + (t : Int) * p ^ (k - 1)))
        else
          pure acc)
    []

/-- `hensel_lifting(f, df, p, k, base_solution)`: `k - 1` rounds of
`henselStep` starting from `[base_solution]`. -/
def hensel_lifting (f df : Int → Int) (p : Int) (k : Nat) (base_solution : Int) :
    Except PyErr (List Int) :=
  (List.range (k - 1)).foldlM (fun sols _ => henselStep f df p k sols) [base_solution]

/-- Modelled from the spec: the external integer `e`-th root collaborator
(`gmpy2.iroot`), for non-negative arguments — the largest `r` with
`r ^ k ≤ v`, computed as the maximum of all such `r ≤ v`.  Only the root
component is used by `hastad_broadcast`. -/
def introot (v k : Nat) : Nat :=
  (((List.range (v + 1)).filter (fun r => r ^ k ≤ v)).foldl max 0)

/-- `hastad_broadcast(residue_and_moduli)`: CRT, integer `k`-th root with
`k = len(residue_and_moduli)`, then the re-encryption `assert` against the
first pair (`AssertionError` on failure).  The head access happens after
`solve_crt`, which has already failed on an empty list, so the `headD`
default is never reached on that path. -/
def hastad_broadcast (residue_and_moduli : List (Int × Int)) : Except PyErr Int := do
  let k := residue_and_moduli.length
  let X ← solve_crt residue_and_moduli
  let solution : Int := (introot X.toNat k : Nat)
  let r0 := residue_and_moduli.headD (0, 0)
  let check ← pypow3 solution (k : Int) r0.2
  if r0.1 = check then pure solution else .error .assertionError

/-- Modelled from the spec: the external `multiply` collaborator (product of
a sequence). -/
def multiply (l : List Int) : Int :=
  l.prod

/-- `combine_signatures(signatures, N) = multiply(signatures) % N`
(`ZeroDivisionError` for `N = 0`). -/
def combine_signatures (signatures : List Int) (N : Int) : Except PyErr Int :=
  pymod (multiply signatures) N

/-- The identity test `payload is int`: true only for the class object
`int` itself, never for an actual integer (or byte-string) value. -/
def payloadIsTypeInt : PyVal → Bool
  | .typeInt => true
  | _ => false

/-- The payload normalization of `homomorphic_blinding_rsa`:
`data = payload; if payload is not int: data = bytes_to_long(payload)`. -/
def hbr_normalize (bytes_to_long : PyVal → Int) (payload : PyVal) : PyVal :=
  if payloadIsTypeInt payload then payload else .int (bytes_to_long payload)

/-- The splitting-and-recombination body of `homomorphic_blinding_rsa` after
payload normalization: `splits` rounds of extracting a divisor via the
external `find_divisor` collaborator (whose contract guarantees a nontrivial
exact divisor; `data / smallest_divisor` is a `ZeroDivisionError` should it
return `0`) and dividing it out, then one signature per part and
`combine_signatures`. -/
def hbr_core (find_divisor get_signature : Int → Int) (data0 N : Int) (splits : Nat) :
    Except PyErr Int := do
  let pd ← (List.range splits).foldlM
    (fun (acc : List Int × Int) _ => do
      let d := find_divisor acc.2
      let q ← pyfdiv acc.2 d
      pure (acc.1 ++ [d], q))
    (([] : List Int), data0)
  combine_signatures ((pd.1 ++ [pd.2]).map get_signature) N

/-- `homomorphic_blinding_rsa(payload, get_signature, N, splits)`: normalizes
the payload (the `payload is not int` guard), then runs `hbr_core`.  If the
normalized value is still not an integer — which happens exactly when the
payload was the class object `int` — the first arithmetic use raises a
`TypeError`. -/
def homomorphic_blinding_rsa (bytes_to_long : PyVal → Int)
    (find_divisor get_signature : Int → Int) (payload : PyVal) (N : Int)
    (splits : Nat) : Except PyErr Int :=
  match hbr_normalize bytes_to_long payload with
  | .int data => hbr_core find_divisor get_signature data N splits
  | _ => .error .typeError

/-- `legendre_symbol(a, p) = pow(a, (p - 1) / 2, p)`, reading `p - 1` as
`-1`. -/
def legendre_symbol (a p : Int) : Except PyErr Int := do
  let ls ← pypow3 a ((p - 1).fdiv 2) p
  pure (if ls = p - 1 then -1 else ls)

/-- The `while s % 2 == 0: s /= 2; e += 1` loop of `modular_sqrt`.  For a
positive starting value `s` the loop halves at most `log₂ s` times, so
`s.toNat + 1` fuel always suffices. -/
def factorTwos : Nat → Int → Nat → Int × Nat
  | 0, s, e => (s, e)
  | fuel + 1, s, e =>
    if s.fmod 2 = 0 then factorTwos fuel (s.fdiv 2) (e + 1) else (s, e)

/-- The `while legendre_symbol(n, p) != -1: n += 1` search of
`modular_sqrt`, starting from `n = 2`.  For an odd prime `p` a quadratic
non-residue exists below `p`, so fuel `p` suffices; `nonTermination` marks
inputs on which the Python loop would run forever (or beyond the fuel). -/
def findNonResidue : Nat → Int → Int → Except PyErr Int
  | 0, _, _ => .error .nonTermination
  | fuel + 1, n, p => do
    let lg ← legendre_symbol n p
    if lg ≠ -1 then findNonResidue fuel (n + 1) p else pure n

/-- The inner `for m in xrange(r): if t == 1: break; t = pow(t, 2, p)` scan
of the Tonelli–Shanks loop, called with `fuel = r` and `m = 0`.  If the
loop runs to exhaustion Python leaves `m` at the last index `r - 1`, which
is `m - 1` at the point the fuel runs out. -/
def tsScanGo (p : Int) : Nat → Int → Nat → Nat
  | 0, _, m => m - 1
  | fuel + 1, t, m => if t = 1 then m else tsScanGo p fuel ((t * t).fmod p) (m + 1)

/-- The value of `m` after the inner scan: `0` when `r = 0` (the `for` body
never runs and `m` keeps its initial value `0`). -/
def tsScan (p : Int) (r : Nat) (t : Int) : Nat :=
  if r = 0 then 0 else tsScanGo p r t 0

/-- The outer `while True` loop of Tonelli–Shanks, state `(x, b, g, r)`.
`r` strictly decreases on every iteration that does not return, so fuel
`r + 1` always suffices. -/
def tsLoop (p : Int) : Nat → Int → Int → Int → Nat → Except PyErr Int
  | 0, _, _, _, _ => .error .nonTermination
  | fuel + 1, x, b, g, r =>
    let m := tsScan p r b
    if m = 0 then .ok x
    else
      let gs := (g ^ (2 ^ (r - m - 1))).fmod p
      let g2 := (gs * gs).fmod p
      let x2 := (x * gs).fmod p
      let b2 := (b * g2).fmod p
      tsLoop p fuel x2 b2 g2 m

/-- `modular_sqrt(a, p)`: Legendre-symbol test, the `a = 0`, `p = 2` and
`p % 4 == 3` special cases, then Tonelli–Shanks. -/
def modular_sqrt (a p : Int) : Except PyErr Int := do
  let lg ← legendre_symbol a p
  if lg ≠ 1 then pure 0
  else if a = 0 then pure 0
  else if p = 2 then pure p
  else if p.fmod 4 = 3 then pypow3 a ((p + 1).fdiv 4) p
  else do
    let se := factorTwos ((p - 1).toNat + 1) (p - 1) 0
    let s := se.1
    let e := se.2
    let n ← findNonResidue p.toNat 2 p
    let x ← pypow3 a ((s + 1).fdiv 2) p
    let b ← pypow3 a s p
    let g ← pypow3 n s p
    tsLoop p (e + 1) x b g e

/-- The product `N` of the moduli of a CRT input list. -/
def crtN (l : List (Int × Int)) : Int :=
  (l.map (·.2)).prod

/-- The summand `residue_i · (N / modulus_i) · modinv(N / modulus_i, modulus_i)`
contributed by one pair to `solve_crt`'s sum (with `modinv` written out via
`extended_gcd`, as it never fails for a nonzero modulus). -/
def crtTerm (N : Int) (pr : Int × Int) : Int :=
  pr.1 * N.fdiv pr.2 * ((extended_gcd (N.fdiv pr.2) pr.2).2.1.fmod pr.2)

-- Sanity checks of the embedding against the Python reference values.
example : extended_gcd 38 3 = (1, -1, 13) := rfl
example : solve_crt [(1, 3), (2, 4), (3, 5)] = .ok 58 := rfl
example : solve_crt [(2, 3), (3, 5), (2, 7)] = .ok 23 := rfl
example : modinv 17 60 = .ok 53 := rfl
example : (pypow3 123 17 3233).bind (fun c => rsa_crt_distinct_multiprime c 17 [61, 53]) =
    .ok 123 := rfl
example : modular_sqrt 4 7 = .ok 2 := rfl
example : modular_sqrt 2 7 = .ok 4 := rfl
example : modular_sqrt 3 7 = .ok 0 := rfl
example : modular_sqrt 10 13 = .ok 7 := rfl
example : legendre_symbol 10 13 = .ok 1 := rfl
example : hastad_broadcast [(2, 3), (3, 5), (1, 7)] = .ok 2 := rfl
example : hensel_lifting (fun x => x ^ 2 - 1) (fun x => 2 * x) 3 2 1 = .ok [1] := rfl

/-! ## Extended Euclid: loop invariants -/

theorem egcdLoop_bezout (A B : Int) :
    ∀ (fuel r0 r1 : Nat) (lx x ly y : Int), r1 < fuel →
      lx * A + ly * B = (r0 : Int) → x * A + y * B = (r1 : Int) →
      (egcdLoop fuel r0 r1 lx x ly y).2.1 * A + (egcdLoop fuel r0 r1 lx x ly y).2.2 * B
        = ((egcdLoop fuel r0 r1 lx x ly y).1 : Int) := by
  intro fuel
  induction fuel with
  | zero => intro r0 r1 lx x ly y h; exact absurd h (Nat.not_lt_zero r1)
  | succ fuel ih =>
    intro r0 r1 lx x ly y hlt h0 h1
    by_cases hr : r1 = 0
    · subst hr; simpa [egcdLoop] using h0
    · have hmod : r0 % r1 < fuel := by
        have h1lt : r0 % r1 < r1 := Nat.mod_lt _ (Nat.pos_of_ne_zero hr)
        omega
      have hdm : ((r1 : Int)) * ((r0 / r1 : Nat) : Int) + ((r0 % r1 : Nat) : Int) = (r0 : Int) := by
        exact_mod_cast congrArg (Nat.cast : Nat → Int) (Nat.div_add_mod r0 r1)
      have hstep : (lx - ((r0 / r1 : Nat) : Int) * x) * A + (ly - ((r0 / r1 : Nat) : Int) * y) * B
          = ((r0 % r1 : Nat) : Int) := by
        linear_combination h0 - ((r0 / r1 : Nat) : Int) * h1 - hdm
      simpa [egcdLoop, hr] using ih r1 (r0 % r1) x _ y _ hmod h1 hstep

theorem egcdLoop_fst (fuel r0 r1 : Nat) (lx x ly y : Int) (h : r1 < fuel) :
    (egcdLoop fuel r0 r1 lx x ly y).1 = Nat.gcd r0 r1 := by
  induction fuel generalizing r0 r1 lx x ly y with
  | zero => exact absurd h (Nat.not_lt_zero r1)
  | succ fuel ih =>
    by_cases hr : r1 = 0
    · subst hr; simp [egcdLoop]
    · have hmod : r0 % r1 < fuel := by
        have h1lt : r0 % r1 < r1 := Nat.mod_lt _ (Nat.pos_of_ne_zero hr)
        omega
      have hrec : Nat.gcd r0 r1 = Nat.gcd r1 (r0 % r1) := by
        rw [Nat.gcd_comm r0 r1, Nat.gcd_rec r1 r0, Nat.gcd_comm]
      simpa [egcdLoop, hr, hrec] using ih r1 (r0 % r1) x _ y _ hmod

theorem sign_mul_self_eq_natAbs (a : Int) :
    (if a < 0 then (-1 : Int) else 1) * a = (a.natAbs : Int) := by
  split <;> omega

theorem extended_gcd_bezout (a b : Int) :
    (extended_gcd a b).2.1 * a + (extended_gcd a b).2.2 * b = (extended_gcd a b).1 := by
  have key := egcdLoop_bezout (a.natAbs : Int) (b.natAbs : Int)
    (b.natAbs + 1) a.natAbs b.natAbs 1 0 0 1 (Nat.lt_succ_self _)
    (by simp) (by simp)
  show _ * (if a < 0 then (-1 : Int) else 1) * a + _ * (if b < 0 then (-1 : Int) else 1) * b = _
  rw [mul_assoc, mul_assoc, sign_mul_self_eq_natAbs, sign_mul_self_eq_natAbs]
  exact key

theorem extended_gcd_fst (a b : Int) :
    (extended_gcd a b).1 = (Int.gcd a b : Int) := by
  have key := egcdLoop_fst (b.natAbs + 1) a.natAbs b.natAbs 1 0 0 1 (Nat.lt_succ_self _)
  show ((egcdLoop (b.natAbs + 1) a.natAbs b.natAbs 1 0 0 1).1 : Int) = _
  rw [key]; rfl

theorem gcd_eq_int_gcd (a b : Int) : gcd a b = (Int.gcd a b : Int) :=
  extended_gcd_fst a b

/-- Auxiliary form of `modinv` success: the modulus only needs to be
nonzero. -/
theorem modinv_ok (x y : Int) (hy : y ≠ 0) :
    modinv x y = .ok ((extended_gcd x y).2.1.fmod y) := by
  simp [modinv, pymod, hy]

/-- The returned inverse is genuinely inverse mod `y` whenever
`gcd(x, y) = 1` and `y > 0`. -/
theorem modinv_mul_emod (x y : Int) (hy : 0 < y) (hco : Int.gcd x y = 1) :
    (x * ((extended_gcd x y).2.1.fmod y)) % y = 1 % y := by
  have hb := extended_gcd_bezout x y
  rw [extended_gcd_fst x y, hco] at hb
  have hfm : (extended_gcd x y).2.1.fmod y = (extended_gcd x y).2.1 % y :=
    Int.fmod_eq_emod _ (le_of_lt hy)
  rw [hfm]
  set s := (extended_gcd x y).2.1
  set t := (extended_gcd x y).2.2
  have h1 : x * (s % y) % y = x * s % y := by
    rw [Int.mul_emod x (s % y), Int.emod_emod_of_dvd _ dvd_rfl, ← Int.mul_emod]
  have h2 : x * s = 1 + y * (-t) := by push_cast at hb; linarith
  rw [h1, h2, Int.add_mul_emod_self_left]

/-! ## C4: `extended_gcd` satisfies the Bezout identity -/

/-- C4: for every pair of integers `a`, `b` (including zero and negative
values), `extended_gcd(a, b)` returns `(g, s, t)` with `g = s·a + t·b` and
`g = gcd(|a|, |b|)`; in particular `extended_gcd(0, 0)` returns `g = 0`. -/
theorem extended_gcd_spec :
    (∀ a b : Int,
      (extended_gcd a b).2.1 * a + (extended_gcd a b).2.2 * b = (extended_gcd a b).1 ∧
      (extended_gcd a b).1 = (Nat.gcd a.natAbs b.natAbs : Int)) ∧
    (extended_gcd 0 0).1 = 0 := by
  refine ⟨fun a b => ⟨extended_gcd_bezout a b, ?_⟩, rfl⟩
  rw [extended_gcd_fst a b]; rfl

/-! ## C5: `modinv` on coprime arguments -/

/-- C5 counterexample: at `x = 1`, `y = 1` (coprime, both positive) the
claimed identity `(x * modinv(x, y)) mod y = 1` fails, because everything
is `0` mod `1`. -/
theorem modinv_one_one_counterexample :
    Int.gcd 1 1 = 1 ∧ (0 : Int) < 1 ∧ modinv 1 1 = .ok 0 ∧
      ((1 : Int) * 0).fmod 1 ≠ 1 := by
  refine ⟨rfl, by decide, rfl, by decide⟩

/-- C5 (amended: the modulus must exceed `1`; for `y = 1` the result is `0`
and `(x·d) mod 1 = 0 ≠ 1`): for coprime `x > 0`, `y > 1`, `modinv(x, y)`
returns `d ∈ [0, y)` with `(x·d) mod y = 1`, and `d` is the first Bezout
coefficient of `extended_gcd(x, y)` reduced mod `y`. -/
theorem modinv_spec (x y : Int) (hx : 0 < x) (hy : 1 < y) (hco : Int.gcd x y = 1) :
    ∃ d, modinv x y = .ok d ∧ 0 ≤ d ∧ d < y ∧ (x * d).fmod y = 1 ∧
      d = (extended_gcd x y).2.1.fmod y := by
  have hy0 : (0 : Int) < y := lt_trans one_pos hy
  have hyne : y ≠ 0 := ne_of_gt hy0
  refine ⟨(extended_gcd x y).2.1.fmod y, modinv_ok x y hyne, ?_, ?_, ?_, rfl⟩
  · exact Int.fmod_nonneg' _ hy0
  · exact Int.fmod_lt_of_pos _ hy0
  · have h := modinv_mul_emod x y hy0 hco
    rw [Int.fmod_eq_emod _ (le_of_lt hy0), h]
    exact Int.emod_eq_of_lt zero_le_one hy

theorem modinv_spec_witness :
    (0 : Int) < 3 ∧ (1 : Int) < 5 ∧ Int.gcd 3 5 = 1 ∧
      ∃ d, modinv 3 5 = .ok d ∧ 0 ≤ d ∧ d < 5 ∧ ((3 : Int) * d).fmod 5 = 1 ∧
        d = (extended_gcd 3 5).2.1.fmod 5 :=
  ⟨by decide, by decide, by decide, modinv_spec 3 5 (by decide) (by decide) (by decide)⟩

/-! ## C9: `gcd_multi` -/

theorem foldl_gcd_eq_foldl_int_gcd :
    ∀ (xs : List Int) (x : Int),
      xs.foldl gcd x = xs.foldl (fun u v => (Int.gcd u v : Int)) x := by
  intro xs
  induction xs with
  | nil => intro x; rfl
  | cons v vs ih =>
    intro x
    simp only [List.foldl_cons, ih, gcd_eq_int_gcd]

/-- C9: `gcd_multi` on the empty list fails (Python 2 `reduce` raises a
`TypeError`, the spec's `InvalidInput`), and on a non-empty list returns the
left fold of `gcd` — which agrees with the mathematical `Int.gcd` — over the
elements, seeded with the first element. -/
theorem gcd_multi_spec :
    gcd_multi [] = .error .typeError ∧
    ∀ (x : Int) (xs : List Int),
      gcd_multi (x :: xs) = .ok (xs.foldl (fun u v => (Int.gcd u v : Int)) x) := by
  refine ⟨rfl, fun x xs => ?_⟩
  simp only [gcd_multi, pyreduce, foldl_gcd_eq_foldl_int_gcd]

/-! ## List and monad helpers -/

theorem except_bind_ok {α β : Type} (a : α) (f : α → Except PyErr β) :
    (Except.ok a >>= f : Except PyErr β) = f a := rfl

theorem except_pure_eq (a : Int) : (pure a : Except PyErr Int) = .ok a := rfl

theorem mapM_eq_ok {α β : Type} (f : α → Except PyErr β) (g : α → β) :
    ∀ l : List α, (∀ x ∈ l, f x = .ok (g x)) → l.mapM f = .ok (l.map g) := by
  intro l
  induction l with
  | nil => intro _; rfl
  | cons a l ih =>
    intro h
    rw [List.mapM_cons, h a (by simp), except_bind_ok,
      ih (fun x hx => h x (List.mem_cons_of_mem a hx)), except_bind_ok]
    rfl

theorem foldl_mul_eq_prod (xs : List Int) (a : Int) : xs.foldl (· * ·) a = a * xs.prod := by
  induction xs generalizing a with
  | nil => simp
  | cons v vs ih => simp [List.foldl_cons, ih, List.prod_cons, mul_assoc]

theorem foldl_add_eq_sum (xs : List Int) (a : Int) : xs.foldl (· + ·) a = a + xs.sum := by
  induction xs generalizing a with
  | nil => simp
  | cons v vs ih => simp only [List.foldl_cons, ih, List.sum_cons]; ring

theorem pyreduce_mul (x : Int) (xs : List Int) :
    pyreduce (· * ·) (x :: xs) = .ok ((x :: xs).prod) := by
  simp [pyreduce, foldl_mul_eq_prod, List.prod_cons]

theorem pyreduce_add (x : Int) (xs : List Int) :
    pyreduce (· + ·) (x :: xs) = .ok ((x :: xs).sum) := by
  simp [pyreduce, foldl_add_eq_sum, List.sum_cons]

/-! ## `solve_crt`: closed form and correctness -/

theorem solve_crt_eq (l : List (Int × Int)) (hne : l ≠ []) (h0 : ∀ pr ∈ l, pr.2 ≠ 0) :
    solve_crt l = .ok ((l.map (crtTerm (crtN l))).sum.fmod (crtN l)) := by
  rcases l with _ | ⟨p0, rest⟩
  · exact absurd rfl hne
  have hN : ((p0 :: rest).map (·.2)).prod = crtN (p0 :: rest) := rfl
  have hNe : crtN (p0 :: rest) ≠ 0 := by
    rw [← hN]
    apply List.prod_ne_zero
    intro hmem
    obtain ⟨pr, hpr, hpr2⟩ := List.mem_map.mp hmem
    exact h0 pr hpr hpr2
  set N := crtN (p0 :: rest) with hNdef
  have hsnd0 : ∀ n ∈ (p0 :: rest).map (·.2), n ≠ 0 := by
    intro n hn
    obtain ⟨pr, hpr, rfl⟩ := List.mem_map.mp hn
    exact h0 pr hpr
  have hred : pyreduce (· * ·) ((p0 :: rest).map (·.2)) = .ok N := by
    rw [List.map_cons, pyreduce_mul, ← List.map_cons, hN]
  have hNxs : ((p0 :: rest).map (·.2)).mapM (fun n => pyfdiv N n)
      = .ok (((p0 :: rest).map (·.2)).map (fun n => N.fdiv n)) := by
    apply mapM_eq_ok
    intro n hn
    simp [pyfdiv, hsnd0 n hn]
  have hds : ((p0 :: rest).map (·.2)).mapM (fun n => pyfdiv N n >>= fun q => modinv q n)
      = .ok (((p0 :: rest).map (·.2)).map
          (fun n => (extended_gcd (N.fdiv n) n).2.1.fmod n)) := by
    apply mapM_eq_ok
    intro n hn
    rw [show pyfdiv N n = .ok (N.fdiv n) by simp [pyfdiv, hsnd0 n hn], except_bind_ok]
    exact modinv_ok _ _ (hsnd0 n hn)
  have hzipmap :
      (((p0 :: rest).map (·.1)).zip
          ((((p0 :: rest).map (·.2)).map (fun n => N.fdiv n)).zip
            (((p0 :: rest).map (·.2)).map
              (fun n => (extended_gcd (N.fdiv n) n).2.1.fmod n)))).map
        (fun t => t.1 * t.2.1 * t.2.2)
      = (p0 :: rest).map (crtTerm N) := by
    rw [List.map_map, List.map_map, List.zip_map', List.zip_map', List.map_map]
    rfl
  have hsum : pyreduce (· + ·) ((p0 :: rest).map (crtTerm N))
      = .ok (((p0 :: rest).map (crtTerm N)).sum) := by
    rw [List.map_cons, pyreduce_add, ← List.map_cons]
  show (pyreduce (· * ·) ((p0 :: rest).map (·.2)) >>= fun N' =>
    ((p0 :: rest).map (·.2)).mapM (fun n => pyfdiv N' n) >>= fun Nxs =>
    ((p0 :: rest).map (·.2)).mapM (fun n => pyfdiv N' n >>= fun q => modinv q n) >>= fun ds =>
    pyreduce (· + ·)
      ((((p0 :: rest).map (·.1)).zip (Nxs.zip ds)).map (fun t => t.1 * t.2.1 * t.2.2))
      >>= fun S => pymod S N') = _
  rw [hred, except_bind_ok, hNxs, except_bind_ok, hds, except_bind_ok, hzipmap, hsum,
    except_bind_ok]
  simp [pymod, hNe]

theorem isCoprime_list_prod_left (z : Int) :
    ∀ qs : List Int, (∀ q ∈ qs, IsCoprime q z) → IsCoprime qs.prod z := by
  intro qs
  induction qs with
  | nil => intro _; simpa using isCoprime_one_left
  | cons q qs ih =>
    intro h
    rw [List.prod_cons]
    exact (h q (List.mem_cons_self q qs)).mul_left
      (ih fun x hx => h x (List.mem_cons_of_mem q hx))

theorem isCoprime_list_prod_right (z : Int) (qs : List Int)
    (h : ∀ q ∈ qs, IsCoprime z q) : IsCoprime z qs.prod :=
  (isCoprime_list_prod_left z qs (fun q hq => (h q hq).symm)).symm

theorem pairwise_coprime_prod_dvd :
    ∀ (ms : List Int) (d : Int), ms.Pairwise IsCoprime → (∀ m ∈ ms, m ∣ d) →
      ms.prod ∣ d := by
  intro ms
  induction ms with
  | nil => intro d _ _; simpa using one_dvd d
  | cons m ms ih =>
    intro d hpw hdvd
    obtain ⟨h1, h2⟩ := List.pairwise_cons.mp hpw
    rw [List.prod_cons]
    exact (isCoprime_list_prod_right m ms h1).mul_dvd
      (hdvd m (List.mem_cons_self m ms)) (ih d h2 fun x hx => hdvd x (List.mem_cons_of_mem m hx))

/-- The key congruence: modulo any member's modulus, `solve_crt`'s sum is
congruent to that member's residue. -/
theorem crt_sum_congr (l : List (Int × Int)) (hpos : ∀ pr ∈ l, 0 < pr.2)
    (hcop : l.Pairwise (fun pr qr => IsCoprime pr.2 qr.2)) (pr : Int × Int)
    (hmem : pr ∈ l) :
    Int.ModEq pr.2 ((l.map (crtTerm (crtN l))).sum) pr.1 := by
  obtain ⟨l1, l2, rfl⟩ := List.append_of_mem hmem
  set N := crtN (l1 ++ pr :: l2) with hNdef
  have hprmem : pr ∈ l1 ++ pr :: l2 := hmem
  have hpr2 : (0 : Int) < pr.2 := hpos pr hprmem
  have hpr2ne : pr.2 ≠ 0 := ne_of_gt hpr2
  have hdvdN : ∀ q ∈ l1 ++ pr :: l2, q.2 ∣ N := by
    intro q hq
    exact List.dvd_prod (List.mem_map.mpr ⟨q, hq, rfl⟩)
  have hprod : N = (l1.map (·.2)).prod * (pr.2 * (l2.map (·.2)).prod) := by
    rw [hNdef]; unfold crtN
    rw [List.map_append, List.prod_append, List.map_cons, List.prod_cons]
  have hN2 : N = pr.2 * ((l1.map (·.2)).prod * (l2.map (·.2)).prod) := by
    rw [hprod]; ring
  have hfd : N.fdiv pr.2 = (l1.map (·.2)).prod * (l2.map (·.2)).prod := by
    rw [hN2, Int.mul_fdiv_cancel_left _ hpr2ne]
  obtain ⟨hpw1, hpw2, hpwx⟩ := List.pairwise_append.mp hcop
  have hco_l1 : ∀ q ∈ l1, IsCoprime q.2 pr.2 := fun q hq =>
    hpwx q hq pr (List.mem_cons_self pr l2)
  have hco_l2 : ∀ q ∈ l2, IsCoprime pr.2 q.2 := fun q hq =>
    (List.pairwise_cons.mp hpw2).1 q hq
  have hcoN : IsCoprime (N.fdiv pr.2) pr.2 := by
    rw [hfd]
    apply IsCoprime.mul_left
    · apply isCoprime_list_prod_left
      intro q hq
      obtain ⟨q', hq', rfl⟩ := List.mem_map.mp hq
      exact hco_l1 q' hq'
    · apply isCoprime_list_prod_left
      intro q hq
      obtain ⟨q', hq', rfl⟩ := List.mem_map.mp hq
      exact (hco_l2 q' hq').symm
  have hinv : Int.ModEq pr.2
      ((N.fdiv pr.2) * ((extended_gcd (N.fdiv pr.2) pr.2).2.1.fmod pr.2)) 1 := by
    have h := modinv_mul_emod (N.fdiv pr.2) pr.2 hpr2 (Int.gcd_eq_one_iff_coprime.mpr hcoN)
    show _ % _ = _ % _
    rw [h]
  have hterm : Int.ModEq pr.2 (crtTerm N pr) pr.1 := by
    show Int.ModEq pr.2
      (pr.1 * N.fdiv pr.2 * ((extended_gcd (N.fdiv pr.2) pr.2).2.1.fmod pr.2)) pr.1
    rw [mul_assoc]
    calc pr.1 * (N.fdiv pr.2 * ((extended_gcd (N.fdiv pr.2) pr.2).2.1.fmod pr.2))
        ≡ pr.1 * 1 [ZMOD pr.2] := Int.ModEq.mul_left pr.1 hinv
      _ = pr.1 := mul_one pr.1
  have hother : ∀ q ∈ l1 ++ l2, pr.2 ∣ crtTerm N q := by
    intro q hq
    have hql : q ∈ l1 ++ pr :: l2 := by
      rcases List.mem_append.mp hq with h | h
      · exact List.mem_append.mpr (Or.inl h)
      · exact List.mem_append.mpr (Or.inr (List.mem_cons_of_mem pr h))
    have hq2 : q.2 ≠ 0 := ne_of_gt (hpos q hql)
    have hco : IsCoprime pr.2 q.2 := by
      rcases List.mem_append.mp hq with h | h
      · exact (hco_l1 q h).symm
      · exact hco_l2 q h
    have hqdvd : q.2 ∣ N := hdvdN q hql
    have hNq : N = q.2 * N.fdiv q.2 := by
      rw [Int.fdiv_eq_ediv_of_dvd hqdvd, Int.mul_ediv_cancel' hqdvd]
    have hdvd_fd : pr.2 ∣ N.fdiv q.2 := by
      apply hco.dvd_of_dvd_mul_left
      rw [← hNq]
      exact hdvdN pr hprmem
    show pr.2 ∣ q.1 * N.fdiv q.2 * ((extended_gcd (N.fdiv q.2) q.2).2.1.fmod q.2)
    exact (hdvd_fd.mul_left q.1).mul_right _
  have hsum : ((l1 ++ pr :: l2).map (crtTerm N)).sum
      = (l1.map (crtTerm N)).sum + (crtTerm N pr + (l2.map (crtTerm N)).sum) := by
    rw [List.map_append, List.sum_append, List.map_cons, List.sum_cons]
  rw [hsum]
  have hA : Int.ModEq pr.2 ((l1.map (crtTerm N)).sum) 0 := by
    apply Int.modEq_zero_iff_dvd.mpr
    apply List.dvd_sum
    intro t ht
    obtain ⟨q, hq, rfl⟩ := List.mem_map.mp ht
    exact hother q (List.mem_append.mpr (Or.inl hq))
  have hB : Int.ModEq pr.2 ((l2.map (crtTerm N)).sum) 0 := by
    apply Int.modEq_zero_iff_dvd.mpr
    apply List.dvd_sum
    intro t ht
    obtain ⟨q, hq, rfl⟩ := List.mem_map.mp ht
    exact hother q (List.mem_append.mpr (Or.inr hq))
  calc (l1.map (crtTerm N)).sum + (crtTerm N pr + (l2.map (crtTerm N)).sum)
      ≡ 0 + (pr.1 + 0) [ZMOD pr.2] := Int.ModEq.add hA (Int.ModEq.add hterm hB)
    _ = pr.1 := by ring

theorem crtN_pos (l : List (Int × Int)) (hpos : ∀ pr ∈ l, 1 < pr.2) : 0 < crtN l := by
  unfold crtN
  apply List.prod_pos
  intro a ha
  obtain ⟨pr, hpr, rfl⟩ := List.mem_map.mp ha
  exact lt_trans one_pos (hpos pr hpr)

/-! ## C1: `solve_crt` correctness -/

/-- C1: for every non-empty list of pairs `(residue_i, modulus_i)` with
pairwise coprime moduli all greater than `1`, `solve_crt` returns the unique
`x` in `[0, N)` (`N` the product of the moduli) with
`x ≡ residue_i mod modulus_i` for every index `i`; in particular
`solve_crt([(2,3),(3,5),(2,7)]) = 23`. -/
theorem solve_crt_spec :
    (∀ l : List (Int × Int), l ≠ [] → (∀ pr ∈ l, 1 < pr.2) →
      l.Pairwise (fun pr qr => Int.gcd pr.2 qr.2 = 1) →
      ∃ x, solve_crt l = .ok x ∧ 0 ≤ x ∧ x < crtN l ∧
        (∀ i (hi : i < l.length), Int.ModEq (l.get ⟨i, hi⟩).2 x (l.get ⟨i, hi⟩).1) ∧
        (∀ y, 0 ≤ y → y < crtN l →
          (∀ i (hi : i < l.length), Int.ModEq (l.get ⟨i, hi⟩).2 y (l.get ⟨i, hi⟩).1) →
          y = x)) ∧
    solve_crt [(2, 3), (3, 5), (2, 7)] = .ok 23 := by
  constructor
  · intro l hne hpos hcop
    have hcop' : l.Pairwise (fun pr qr => IsCoprime pr.2 qr.2) :=
      hcop.imp (fun h => Int.gcd_eq_one_iff_coprime.mp h)
    have hpos' : ∀ pr ∈ l, (0 : Int) < pr.2 :=
      fun pr h => lt_trans one_pos (hpos pr h)
    have h0 : ∀ pr ∈ l, pr.2 ≠ 0 := fun pr h => ne_of_gt (hpos' pr h)
    have hNpos : 0 < crtN l := crtN_pos l hpos
    refine ⟨((l.map (crtTerm (crtN l))).sum).fmod (crtN l), solve_crt_eq l hne h0,
      Int.fmod_nonneg' _ hNpos, Int.fmod_lt_of_pos _ hNpos, ?_, ?_⟩
    all_goals
      have hcongr_mem : ∀ pr ∈ l,
          Int.ModEq pr.2 (((l.map (crtTerm (crtN l))).sum).fmod (crtN l)) pr.1 := by
        intro pr hpr
        have h1 : Int.ModEq pr.2 ((l.map (crtTerm (crtN l))).sum) pr.1 :=
          crt_sum_congr l hpos' hcop' pr hpr
        have h2 : Int.ModEq (crtN l) (((l.map (crtTerm (crtN l))).sum).fmod (crtN l))
            ((l.map (crtTerm (crtN l))).sum) := by
          rw [Int.fmod_eq_emod _ (le_of_lt hNpos)]
          exact Int.emod_emod_of_dvd _ dvd_rfl
        have hdvd : pr.2 ∣ crtN l := List.dvd_prod (List.mem_map.mpr ⟨pr, hpr, rfl⟩)
        exact (Int.ModEq.of_dvd hdvd h2).trans h1
    · intro i hi
      exact hcongr_mem _ (List.get_mem l i hi)
    · intro y hy0 hyN hycong
      have hycong' : ∀ pr ∈ l, Int.ModEq pr.2 y pr.1 := by
        intro pr hpr
        obtain ⟨⟨i, hi⟩, hget⟩ := List.mem_iff_get.mp hpr
        have := hycong i hi
        rwa [hget] at this
      have hdvd_each : ∀ m ∈ l.map (·.2),
          m ∣ (((l.map (crtTerm (crtN l))).sum).fmod (crtN l) - y) := by
        intro m hm
        obtain ⟨pr, hpr, rfl⟩ := List.mem_map.mp hm
        have hxy : Int.ModEq pr.2 y (((l.map (crtTerm (crtN l))).sum).fmod (crtN l)) :=
          (hycong' pr hpr).trans (hcongr_mem pr hpr).symm
        exact hxy.dvd
      have hpw : (l.map (·.2)).Pairwise IsCoprime :=
        List.pairwise_map.mpr hcop'
      have hNdvd : crtN l ∣ (((l.map (crtTerm (crtN l))).sum).fmod (crtN l) - y) :=
        pairwise_coprime_prod_dvd (l.map (·.2)) _ hpw hdvd_each
      have hmodeq : Int.ModEq (crtN l) y (((l.map (crtTerm (crtN l))).sum).fmod (crtN l)) :=
        Int.modEq_iff_dvd.mpr hNdvd
      have hy : y % crtN l = y := Int.emod_eq_of_lt hy0 hyN
      have hx : (((l.map (crtTerm (crtN l))).sum).fmod (crtN l)) % crtN l
          = ((l.map (crtTerm (crtN l))).sum).fmod (crtN l) :=
        Int.emod_eq_of_lt (Int.fmod_nonneg' _ hNpos) (Int.fmod_lt_of_pos _ hNpos)
      have := hmodeq
      unfold Int.ModEq at this
      rw [hy, hx] at this
      exact this
  · rfl

theorem solve_crt_spec_witness :
    ∃ x, solve_crt [((2 : Int), (3 : Int)), (3, 5), (2, 7)] = .ok x ∧ 0 ≤ x ∧
      x < crtN [((2 : Int), (3 : Int)), (3, 5), (2, 7)] ∧
      (∀ i (hi : i < [((2 : Int), (3 : Int)), (3, 5), (2, 7)].length),
        Int.ModEq ([((2 : Int), (3 : Int)), (3, 5), (2, 7)].get ⟨i, hi⟩).2 x
          ([((2 : Int), (3 : Int)), (3, 5), (2, 7)].get ⟨i, hi⟩).1) ∧
      (∀ y, 0 ≤ y → y < crtN [((2 : Int), (3 : Int)), (3, 5), (2, 7)] →
        (∀ i (hi : i < [((2 : Int), (3 : Int)), (3, 5), (2, 7)].length),
          Int.ModEq ([((2 : Int), (3 : Int)), (3, 5), (2, 7)].get ⟨i, hi⟩).2 y
            ([((2 : Int), (3 : Int)), (3, 5), (2, 7)].get ⟨i, hi⟩).1) → y = x) :=
  solve_crt_spec.1 [(2, 3), (3, 5), (2, 7)] (by decide) (by decide) (by decide)

/-! ## C2: multi-prime RSA-CRT round trip for `p = 61`, `q = 53`, `e = 17` -/

/-- Fermat: `a ^ (k(p-1) + 1) ≡ a mod p` for `p` prime. -/
theorem pow_fermat (p : ℕ) (hp : p.Prime) (k : ℕ) (a : ℤ) :
    a ^ (k * (p - 1) + 1) ≡ a [ZMOD (p : ℤ)] := by
  haveI : Fact p.Prime := ⟨hp⟩
  rw [← ZMod.intCast_eq_intCast_iff]
  push_cast
  by_cases hz : (a : ZMod p) = 0
  · rw [hz, zero_pow (by omega : k * (p - 1) + 1 ≠ 0)]
  · rw [pow_succ, mul_comm k (p - 1), pow_mul, ZMod.pow_card_sub_one_eq_one hz, one_pow,
      one_mul]

/-- With the concrete factors `[61, 53]` and `e = 17`, Garner's algorithm
reduces definitionally to a closed form (`d₁ = 53`, `d₂ = 49`,
`t₂ = modinv(61, 53) = 20`). -/
theorem rsa_crt_6153_closed (c : Int) :
    rsa_crt_distinct_multiprime c 17 [61, 53] =
      .ok ((c ^ 53).fmod 61 +
        61 * ((((c ^ 49).fmod 53 - ((c ^ 53).fmod 61).fmod 53) * 20).fmod 53)) := rfl

theorem c2_core (m : Int) (h0 : 0 ≤ m) (h1 : m < 3233) :
    rsa_crt_distinct_multiprime ((m ^ 17).fmod 3233) 17 [61, 53] = .ok m := by
  rw [rsa_crt_6153_closed]
  refine congrArg Except.ok ?_
  set c : Int := (m ^ 17).fmod 3233 with hc
  set A : Int := (c ^ 53).fmod 61 with hA
  set B : Int := (c ^ 49).fmod 53 with hB
  set inn : Int := ((B - A.fmod 53) * 20).fmod 53 with hinn
  have hA0 : 0 ≤ A := Int.fmod_nonneg' _ (by norm_num)
  have hA61 : A < 61 := Int.fmod_lt_of_pos _ (by norm_num)
  have hI0 : 0 ≤ inn := Int.fmod_nonneg' _ (by norm_num)
  have hI53 : inn < 53 := Int.fmod_lt_of_pos _ (by norm_num)
  have hfe : ∀ (x : Int) (n : Int), 0 < n → x.fmod n ≡ x [ZMOD n] := by
    intro x n hn
    rw [Int.fmod_eq_emod _ (le_of_lt hn)]
    exact Int.emod_emod_of_dvd _ dvd_rfl
  have hc_modeq : c ≡ m ^ 17 [ZMOD 3233] := hfe _ _ (by norm_num)
  have hc61 : c ≡ m ^ 17 [ZMOD 61] := hc_modeq.of_dvd (by norm_num)
  have hc53 : c ≡ m ^ 17 [ZMOD 53] := hc_modeq.of_dvd (by norm_num)
  have hA_m : A ≡ m [ZMOD 61] := by
    have h2 : c ^ 53 ≡ (m ^ 17) ^ 53 [ZMOD 61] := hc61.pow 53
    have h3 : (m ^ 17) ^ 53 = m ^ 901 := by rw [← pow_mul]
    have h4 : m ^ 901 ≡ m [ZMOD 61] := by
      have h := pow_fermat 61 (by norm_num) 15 m
      norm_num at h
      exact h
    calc A ≡ c ^ 53 [ZMOD 61] := hfe _ _ (by norm_num)
      _ ≡ (m ^ 17) ^ 53 [ZMOD 61] := h2
      _ = m ^ 901 := h3
      _ ≡ m [ZMOD 61] := h4
  have hB_m : B ≡ m [ZMOD 53] := by
    have h2 : c ^ 49 ≡ (m ^ 17) ^ 49 [ZMOD 53] := hc53.pow 49
    have h3 : (m ^ 17) ^ 49 = m ^ 833 := by rw [← pow_mul]
    have h4 : m ^ 833 ≡ m [ZMOD 53] := by
      have h := pow_fermat 53 (by norm_num) 16 m
      norm_num at h
      exact h
    calc B ≡ c ^ 49 [ZMOD 53] := hfe _ _ (by norm_num)
      _ ≡ (m ^ 17) ^ 49 [ZMOD 53] := h2
      _ = m ^ 833 := h3
      _ ≡ m [ZMOD 53] := h4
  have hR61 : A + 61 * inn ≡ m [ZMOD 61] := by
    calc A + 61 * inn ≡ A + 0 [ZMOD 61] :=
        Int.ModEq.add_left A (Int.modEq_zero_iff_dvd.mpr ⟨inn, rfl⟩)
      _ = A := add_zero A
      _ ≡ m [ZMOD 61] := hA_m
  have hinner : inn ≡ (B - A) * 20 [ZMOD 53] := by
    have e1 : inn ≡ (B - A.fmod 53) * 20 [ZMOD 53] := hfe _ _ (by norm_num)
    have e2 : B - A.fmod 53 ≡ B - A [ZMOD 53] :=
      Int.ModEq.sub (Int.ModEq.refl B) (hfe A 53 (by norm_num))
    exact e1.trans (e2.mul_right 20)
  have hR53 : A + 61 * inn ≡ m [ZMOD 53] := by
    calc A + 61 * inn ≡ A + 61 * ((B - A) * 20) [ZMOD 53] :=
        Int.ModEq.add_left A (Int.ModEq.mul_left 61 hinner)
      _ = 1220 * B - 1219 * A := by ring
      _ ≡ 1 * B - 0 * A [ZMOD 53] :=
        Int.ModEq.sub ((by decide : (1220 : Int) ≡ 1 [ZMOD 53]).mul_right B)
          ((by decide : (1219 : Int) ≡ 0 [ZMOD 53]).mul_right A)
      _ = B := by ring
      _ ≡ m [ZMOD 53] := hB_m
  have hd61 : (61 : Int) ∣ (A + 61 * inn - m) := hR61.symm.dvd
  have hd53 : (53 : Int) ∣ (A + 61 * inn - m) := hR53.symm.dvd
  have hco : IsCoprime (61 : Int) 53 := Int.gcd_eq_one_iff_coprime.mp (by decide)
  have hd : (3233 : Int) ∣ (A + 61 * inn - m) := by
    have h := hco.mul_dvd hd61 hd53
    norm_num at h
    exact h
  omega

/-- C2: round trip of multi-prime RSA-CRT decryption with `p = 61`,
`q = 53` (`n = 3233`) and `e = 17`: for every plaintext `0 ≤ m < 3233`,
`rsa_crt_distinct_multiprime(rsa(m, 17, 3233), 17, [61, 53]) = m`. -/
theorem rsa_crt_roundtrip (bytes_to_long : PyVal → Int) (m : Int)
    (h0 : 0 ≤ m) (h1 : m < 3233) :
    ∃ c, rsa bytes_to_long (.int m) 17 3233 = .ok c ∧
      rsa_crt_distinct_multiprime c 17 [61, 53] = .ok m :=
  ⟨(m ^ 17).fmod 3233, rfl, c2_core m h0 h1⟩

theorem rsa_crt_roundtrip_witness :
    (0 : Int) ≤ 65 ∧ (65 : Int) < 3233 ∧
      ∃ c, rsa (fun _ => 0) (.int 65) 17 3233 = .ok c ∧
        rsa_crt_distinct_multiprime c 17 [61, 53] = .ok 65 :=
  ⟨by decide, by decide, rsa_crt_roundtrip (fun _ => 0) 65 (by decide) (by decide)⟩

/-! ## C6: `hensel_lifting` uses `p ** (k - 1)` instead of `p ** level` -/

/-- C6: the source's lifting rounds use the fixed exponent `k - 1` (and the
fixed modulus `p ** k` in the branching test) instead of the per-round
level, so for `k ≥ 3` the returned "solutions" need not be roots of `f`
modulo `p ^ k`.  Concretely, for `f(x) = x² − 7`, `p = 3`, `k = 3`, base
solution `1`, the code returns `[19]`, but `f(19) = 354 ≢ 0 mod 27` — while
`13 ≡ 1 mod 3` is an actual root of `f` mod `27` that correct lifting would
produce. -/
theorem hensel_lifting_bug :
    hensel_lifting (fun x => x ^ 2 - 7) (fun x => 2 * x) 3 3 1 = .ok [19] ∧
      ((19 : Int) ^ 2 - 7).fmod (3 ^ 3) ≠ 0 ∧
      ((13 : Int) ^ 2 - 7).fmod (3 ^ 3) = 0 ∧ (13 : Int).fmod 3 = 1 :=
  ⟨rfl, by decide, by decide, by decide⟩

/-! ## C8: no `InvalidExponent` failure on non-coprime exponent -/

theorem mapM_ok_of_forall {α β : Type} (f : α → Except PyErr β) (P : β → Prop) :
    ∀ l : List α, (∀ x ∈ l, ∃ y, f x = .ok y ∧ P y) →
      ∃ ys, l.mapM f = .ok ys ∧ (∀ y ∈ ys, P y) ∧ ys.length = l.length := by
  intro l
  induction l with
  | nil => intro _; exact ⟨[], rfl, by simp, rfl⟩
  | cons a l ih =>
    intro h
    obtain ⟨y, hy, hPy⟩ := h a (List.mem_cons_self a l)
    obtain ⟨ys, hys, hPys, hlen⟩ := ih (fun x hx => h x (List.mem_cons_of_mem a hx))
    refine ⟨y :: ys, ?_, ?_, by simp [hlen]⟩
    · rw [List.mapM_cons, hy, except_bind_ok, hys, except_bind_ok]
      rfl
    · intro z hz
      rcases List.mem_cons.mp hz with rfl | hz'
      · exact hPy
      · exact hPys z hz'

theorem foldlM_ok_of_forall {σ α : Type} (f : σ → α → Except PyErr σ) (P : σ → Prop)
    (l : List α) :
    ∀ s : σ, P s → (∀ s' x, P s' → x ∈ l → ∃ s'', f s' x = .ok s'' ∧ P s'') →
      ∃ t, l.foldlM f s = .ok t ∧ P t := by
  induction l with
  | nil => intro s hs _; exact ⟨s, rfl, hs⟩
  | cons a l ih =>
    intro s hs h
    obtain ⟨s', hs', hPs'⟩ := h s a hs (List.mem_cons_self a l)
    obtain ⟨t, ht, hPt⟩ := ih s' hPs'
      (fun u x hu hx => h u x hu (List.mem_cons_of_mem a hx))
    refine ⟨t, ?_, hPt⟩
    rw [List.foldlM_cons, hs', except_bind_ok, ht]

/-- C8 counterexample: at `c = 2`, `e = 2`, `factors = [5, 7]` we have
`gcd(e, factors[0] - 1) = gcd(2, 4) = 2 ≠ 1`, yet the function returns a
value (`2`) instead of failing: `modinv` silently yields a meaningless
result for non-coprime arguments and no check is performed. -/
theorem rsa_crt_no_invalid_exponent :
    Int.gcd 2 (5 - 1) ≠ 1 ∧ rsa_crt_distinct_multiprime 2 2 [5, 7] = .ok 2 :=
  ⟨by decide, rfl⟩

/-- C8 (amended: there is no coprimality check at all): for every ciphertext
`c`, every exponent `e` — coprime to the `factors[i] - 1` or not — and every
non-empty factor list with all factors `> 1`, `rsa_crt_distinct_multiprime`
returns normally with some value; the only failure modes lie outside that
domain (empty list, or a factor making a modulus zero or an exponent
negative). -/
theorem rsa_crt_total_on_valid_factors (c e : Int) (factors : List Int)
    (hne : factors ≠ []) (hgt : ∀ f ∈ factors, 1 < f) :
    ∃ v, rsa_crt_distinct_multiprime c e factors = .ok v := by
  obtain ⟨di, hdi, hdiP, hdilen⟩ := mapM_ok_of_forall
    (fun prime => modinv e (prime - 1)) (fun d => 0 ≤ d) factors
    (by
      intro prime hmem
      have h1 : (1 : Int) < prime := hgt prime hmem
      have hne' : prime - 1 ≠ 0 := by omega
      refine ⟨(extended_gcd e (prime - 1)).2.1.fmod (prime - 1), modinv_ok _ _ hne', ?_⟩
      exact Int.fmod_nonneg' _ (by omega))
  rcases factors with _ | ⟨f0, rest⟩
  · exact absurd rfl hne
  rcases di with _ | ⟨d0, drest⟩
  · simp at hdilen
  obtain ⟨tis_m, htis, -⟩ := foldlM_ok_of_forall
    (fun (acc : List Int × Int) prime => do
      let t ← modinv acc.2 prime
      pure (acc.1 ++ [t], acc.2 * prime))
    (fun _ => True) rest ([(-1 : Int)], f0) trivial
    (by
      intro s' x _ hx
      have hgx : (1 : Int) < x := hgt x (List.mem_cons_of_mem f0 hx)
      refine ⟨(s'.1 ++ [(extended_gcd s'.2 x).2.1.fmod x], s'.2 * x), ?_, trivial⟩
      show (modinv s'.2 x >>= fun t => pure (s'.1 ++ [t], s'.2 * x)) = _
      rw [modinv_ok _ _ (by omega), except_bind_ok]
      rfl)
  obtain ⟨xis, hxis, -, hxislen⟩ := mapM_ok_of_forall
    (fun pd => pypow3 c pd.2 pd.1) (fun _ => True) ((f0 :: rest).zip (d0 :: drest))
    (by
      intro pd hpd
      obtain ⟨hp1, hp2⟩ := List.of_mem_zip hpd
      have hg : (1 : Int) < pd.1 := hgt pd.1 hp1
      have hd : (0 : Int) ≤ pd.2 := hdiP pd.2 hp2
      refine ⟨(c ^ pd.2.toNat).fmod pd.1, ?_, trivial⟩
      have h1 : pd.1 ≠ 0 := by omega
      have h2 : ¬pd.2 < 0 := by omega
      simp [pypow3, h1, h2])
  rcases xis with _ | ⟨x0, xrest⟩
  · rw [List.length_zip] at hxislen
    simp only [List.length_cons, List.length_nil] at hxislen
    omega
  obtain ⟨res, hres, -⟩ := foldlM_ok_of_forall
    (fun (acc : Int × Int) t3 => do
      let xmod ← pymod acc.1 t3.1
      let inner ← pymod ((t3.2.1 - xmod) * t3.2.2) t3.1
      pure (acc.1 + acc.2 * inner, acc.2 * t3.1))
    (fun _ => True) (rest.zip (xrest.zip tis_m.1.tail)) (x0, f0) trivial
    (by
      intro s' t3 _ ht3
      have hmem : t3.1 ∈ rest := (List.of_mem_zip ht3).1
      have hg : (1 : Int) < t3.1 := hgt t3.1 (List.mem_cons_of_mem f0 hmem)
      have hne3 : t3.1 ≠ 0 := by omega
      refine ⟨(s'.1 + s'.2 * (((t3.2.1 - s'.1.fmod t3.1) * t3.2.2).fmod t3.1),
        s'.2 * t3.1), ?_, trivial⟩
      simp [pymod, hne3, except_bind_ok])
  refine ⟨res.1, ?_⟩
  show ((f0 :: rest).mapM (fun prime => modinv e (prime - 1)) >>= fun di =>
    match f0 :: rest, di with
    | f0 :: rest, _ :: _ => _
    | _, _ => Except.error PyErr.indexError) = _
  rw [hdi, except_bind_ok]
  show (rest.foldlM _ ([(-1 : Int)], f0) >>= fun tis_m => _) = _
  rw [htis, except_bind_ok, hxis, except_bind_ok]
  show (((rest.zip (xrest.zip tis_m.1.tail)).foldlM _ (x0, f0)) >>= fun res => pure res.1) = _
  rw [hres, except_bind_ok]
  rfl

theorem rsa_crt_total_witness :
    ([(5 : Int), 7] ≠ ([] : List Int)) ∧ (∀ f ∈ [(5 : Int), 7], 1 < f) ∧
      ∃ v, rsa_crt_distinct_multiprime 2 2 [5, 7] = .ok v :=
  ⟨by decide, by decide, rsa_crt_total_on_valid_factors 2 2 [5, 7] (by decide) (by decide)⟩

/-! ## C7: Hastad broadcast -/

theorem foldl_max_le {l : List Nat} {b : Nat} (h : ∀ x ∈ l, x ≤ b) :
    ∀ a, a ≤ b → l.foldl max a ≤ b := by
  induction l with
  | nil => intro a ha; simpa using ha
  | cons v vs ih =>
    intro a ha
    rw [List.foldl_cons]
    exact ih (fun x hx => h x (List.mem_cons_of_mem v hx)) (max a v)
      (max_le ha (h v (List.mem_cons_self v vs)))

theorem foldl_max_init_le (l : List Nat) : ∀ a : Nat, a ≤ l.foldl max a := by
  induction l with
  | nil => intro a; exact le_refl a
  | cons v vs ih => intro a; exact le_trans (le_max_left a v) (ih (max a v))

theorem le_foldl_max (l : List Nat) : ∀ (a x : Nat), x ∈ l → x ≤ l.foldl max a := by
  induction l with
  | nil => intro a x hx; exact absurd hx (List.not_mem_nil x)
  | cons v vs ih =>
    intro a x hx
    rw [List.foldl_cons]
    rcases List.mem_cons.mp hx with rfl | hx'
    · exact le_trans (le_max_right a x) (foldl_max_init_le vs (max a x))
    · exact ih (max a v) x hx'

/-- Exactness of the modelled integer root on perfect powers. -/
theorem introot_pow (m k : Nat) (hk : 1 ≤ k) : introot (m ^ k) k = m := by
  unfold introot
  have hk0 : k ≠ 0 := by omega
  apply le_antisymm
  · apply foldl_max_le _ _ (Nat.zero_le m)
    intro x hx
    have hx' := List.mem_filter.mp hx
    have hpow : x ^ k ≤ m ^ k := of_decide_eq_true hx'.2
    exact (Nat.pow_le_pow_iff_left hk0).mp hpow
  · apply le_foldl_max
    apply List.mem_filter.mpr
    refine ⟨List.mem_range.mpr ?_, by simp⟩
    exact Nat.lt_succ_of_le (Nat.le_self_pow hk0 m)

theorem fmod_modEq (x n : Int) (hn : 0 < n) : x.fmod n ≡ x [ZMOD n] := by
  rw [Int.fmod_eq_emod _ (le_of_lt hn)]
  exact Int.emod_emod_of_dvd _ dvd_rfl

/-- Reduction of `hastad_broadcast` once `solve_crt` has succeeded and the
first modulus is nonzero: everything is determined by the re-encryption
check. -/
theorem hastad_reduce (l : List (Int × Int)) (X : Int) (hX : solve_crt l = .ok X)
    (hr0 : (l.headD (0, 0)).2 ≠ 0) :
    hastad_broadcast l =
      if (l.headD (0, 0)).1
          = (((introot X.toNat l.length : Nat) : Int) ^ l.length).fmod (l.headD (0, 0)).2
      then .ok ((introot X.toNat l.length : Nat) : Int)
      else .error .assertionError := by
  show (solve_crt l >>= fun X' =>
    pypow3 ((introot X'.toNat l.length : Nat) : Int) (l.length : Int) (l.headD (0, 0)).2
      >>= fun check =>
    if (l.headD (0, 0)).1 = check then pure ((introot X'.toNat l.length : Nat) : Int)
    else .error .assertionError) = _
  rw [hX, except_bind_ok]
  have hlen : ¬((l.length : Int) < 0) := by omega
  have hpow : pypow3 ((introot X.toNat l.length : Nat) : Int) (l.length : Int)
      (l.headD (0, 0)).2
      = .ok ((((introot X.toNat l.length : Nat) : Int) ^ l.length).fmod (l.headD (0, 0)).2) := by
    unfold pypow3
    rw [if_neg hr0, if_neg hlen, Int.toNat_natCast]
  rw [hpow, except_bind_ok]
  rfl

/-- C7 counterexample (to the "for every input list" clause): on the empty
list the function fails with the `TypeError` of `reduce` on an empty
sequence, not with the `AssertionError` (`VerificationFailed`) of the
re-encryption check. -/
theorem hastad_empty_counterexample :
    hastad_broadcast [] = .error .typeError ∧ PyErr.typeError ≠ PyErr.assertionError :=
  ⟨rfl, by decide⟩

/-- C7 (amended: the any-list clause needs a non-empty list with positive
moduli; the empty list fails with `TypeError` and a zero/negative modulus
fails with `ZeroDivisionError`/`ValueError` instead of
`VerificationFailed`): (1) for `e = 3` and three pairwise-coprime moduli
`> 1` with `m ^ 3 < n₁n₂n₃`, broadcasting `m ^ 3 mod nᵢ` recovers exactly
`m`; (2) for every non-empty list with positive moduli, the function either
returns a value whose `len(pairs)`-th power mod the first modulus equals
the first residue, or fails with `AssertionError` (`VerificationFailed`). -/
theorem hastad_spec :
    (∀ m n1 n2 n3 : Int, 0 ≤ m → 1 < n1 → 1 < n2 → 1 < n3 →
      Int.gcd n1 n2 = 1 → Int.gcd n1 n3 = 1 → Int.gcd n2 n3 = 1 →
      m ^ 3 < n1 * n2 * n3 →
      hastad_broadcast [((m ^ 3).fmod n1, n1), ((m ^ 3).fmod n2, n2), ((m ^ 3).fmod n3, n3)]
        = .ok m) ∧
    (∀ l : List (Int × Int), l ≠ [] → (∀ pr ∈ l, 0 < pr.2) →
      (∃ v, hastad_broadcast l = .ok v ∧
        (v ^ l.length).fmod (l.headD (0, 0)).2 = (l.headD (0, 0)).1) ∨
      hastad_broadcast l = .error .assertionError) := by
  constructor
  · intro m n1 n2 n3 hm h1 h2 h3 g12 g13 g23 hlt
    set l3 : List (Int × Int) :=
      [((m ^ 3).fmod n1, n1), ((m ^ 3).fmod n2, n2), ((m ^ 3).fmod n3, n3)] with hl3
    have hne : l3 ≠ [] := by simp [hl3]
    have hmem3 : ∀ pr ∈ l3,
        pr = ((m ^ 3).fmod n1, n1) ∨ pr = ((m ^ 3).fmod n2, n2) ∨
        pr = ((m ^ 3).fmod n3, n3) := by
      intro pr hpr
      simpa [hl3] using hpr
    have hmod1 : ∀ pr ∈ l3, (1 : Int) < pr.2 := by
      intro pr hpr
      rcases hmem3 pr hpr with rfl | rfl | rfl <;> assumption
    have hpos : ∀ pr ∈ l3, (0 : Int) < pr.2 :=
      fun pr hpr => lt_trans one_pos (hmod1 pr hpr)
    have h0 : ∀ pr ∈ l3, pr.2 ≠ 0 := fun pr hpr => ne_of_gt (hpos pr hpr)
    have hNval : crtN l3 = n1 * n2 * n3 := by
      show n1 * (n2 * (n3 * 1)) = n1 * n2 * n3
      ring
    have hcop : l3.Pairwise (fun pr qr => IsCoprime pr.2 qr.2) := by
      rw [hl3]
      refine List.Pairwise.cons ?_ (List.Pairwise.cons ?_ (List.pairwise_singleton _ _))
      · intro qr hqr
        rcases List.mem_cons.mp hqr with rfl | hqr'
        · exact Int.gcd_eq_one_iff_coprime.mp g12
        · rcases List.mem_singleton.mp hqr' with rfl
          exact Int.gcd_eq_one_iff_coprime.mp g13
      · intro qr hqr
        rcases List.mem_singleton.mp hqr with rfl
        exact Int.gcd_eq_one_iff_coprime.mp g23
    have hX := solve_crt_eq l3 hne h0
    have hNpos : 0 < crtN l3 := crtN_pos l3 hmod1
    set S : Int := (l3.map (crtTerm (crtN l3))).sum with hS
    have hXcong : ∀ pr ∈ l3, Int.ModEq pr.2 (S.fmod (crtN l3)) pr.1 := by
      intro pr hpr
      have hdvd : pr.2 ∣ crtN l3 := List.dvd_prod (List.mem_map.mpr ⟨pr, hpr, rfl⟩)
      exact (Int.ModEq.of_dvd hdvd (fmod_modEq S (crtN l3) hNpos)).trans
        (crt_sum_congr l3 hpos hcop pr hpr)
    have hm3cong : ∀ pr ∈ l3, Int.ModEq pr.2 (m ^ 3) pr.1 := by
      intro pr hpr
      rcases hmem3 pr hpr with rfl | rfl | rfl
      · exact (fmod_modEq (m ^ 3) n1 (by omega)).symm
      · exact (fmod_modEq (m ^ 3) n2 (by omega)).symm
      · exact (fmod_modEq (m ^ 3) n3 (by omega)).symm
    have hdvd_each : ∀ md ∈ l3.map (·.2), md ∣ (S.fmod (crtN l3) - m ^ 3) := by
      intro md hmd
      obtain ⟨pr, hpr, rfl⟩ := List.mem_map.mp hmd
      exact ((hm3cong pr hpr).trans (hXcong pr hpr).symm).dvd
    have hNdvd : crtN l3 ∣ (S.fmod (crtN l3) - m ^ 3) :=
      pairwise_coprime_prod_dvd (l3.map (·.2)) _ (List.pairwise_map.mpr hcop) hdvd_each
    have hm30 : 0 ≤ m ^ 3 := pow_nonneg hm 3
    have hm3lt : m ^ 3 < crtN l3 := by rw [hNval]; exact hlt
    have hXm : S.fmod (crtN l3) = m ^ 3 := by
      have h := Int.modEq_iff_dvd.mpr hNdvd
      unfold Int.ModEq at h
      rw [Int.emod_eq_of_lt hm30 hm3lt,
        Int.emod_eq_of_lt (Int.fmod_nonneg' _ hNpos) (Int.fmod_lt_of_pos _ hNpos)] at h
      exact h.symm
    have hr0 : (l3.headD (0, 0)).2 ≠ 0 := by
      show n1 ≠ 0
      omega
    rw [hastad_reduce l3 (S.fmod (crtN l3)) hX hr0]
    have hroot : ((introot (S.fmod (crtN l3)).toNat l3.length : Nat) : Int) = m := by
      rw [hXm]
      show ((introot (m ^ 3).toNat 3 : Nat) : Int) = m
      have hmn : m = ((m.toNat : Nat) : Int) := (Int.toNat_of_nonneg hm).symm
      rw [hmn]
      have hcast : (((m.toNat : Nat) : Int) ^ 3).toNat = m.toNat ^ 3 := by
        rw [← Nat.cast_pow, Int.toNat_natCast]
      rw [hcast, introot_pow m.toNat 3 (by omega)]
    rw [hroot]
    have hcond : (l3.headD (0, 0)).1 = (m ^ l3.length).fmod (l3.headD (0, 0)).2 := rfl
    rw [if_pos hcond]
  · intro l hne hpos
    have h0 : ∀ pr ∈ l, pr.2 ≠ 0 := fun pr h => ne_of_gt (hpos pr h)
    have hhead : l.headD (0, 0) ∈ l := by
      rcases l with _ | ⟨p, rest⟩
      · exact absurd rfl hne
      · exact List.mem_cons_self p rest
    have hr0 : (l.headD (0, 0)).2 ≠ 0 := h0 _ hhead
    rw [hastad_reduce l _ (solve_crt_eq l hne h0) hr0]
    by_cases hcond : (l.headD (0, 0)).1
        = (((introot ((l.map (crtTerm (crtN l))).sum.fmod (crtN l)).toNat l.length : Nat) : Int)
            ^ l.length).fmod (l.headD (0, 0)).2
    · left
      exact ⟨_, by rw [if_pos hcond], hcond.symm⟩
    · right
      rw [if_neg hcond]

theorem hastad_spec_witness :
    hastad_broadcast [(((2 : Int) ^ 3).fmod 3, 3), (((2 : Int) ^ 3).fmod 5, 5),
      (((2 : Int) ^ 3).fmod 7, 7)] = .ok 2 :=
  hastad_spec.1 2 3 5 7 (by decide) (by decide) (by decide) (by decide) (by decide)
    (by decide) (by decide) (by decide)

/-- C10: the guard `payload is not int` is an identity comparison against
the class object `int`, hence true for every actual value — integer or byte
string alike — so `bytes_to_long` is applied to every payload and an integer
payload is never passed through unchanged: whatever the splitting loop and
recombination then do (return a signature, or raise on a zero divisor or a
zero modulus), they do it to `bytes_to_long(payload)`, never to the raw
integer payload. -/
theorem homomorphic_blinding_guard_spec :
    (∀ n : Int, payloadIsTypeInt (.int n) = false) ∧
    (∀ bs : List Nat, payloadIsTypeInt (.bytes bs) = false) ∧
    (∀ (b2l : PyVal → Int) (n : Int), hbr_normalize b2l (.int n) = .int (b2l (.int n))) ∧
    (∀ (b2l : PyVal → Int) (bs : List Nat),
      hbr_normalize b2l (.bytes bs) = .int (b2l (.bytes bs))) ∧
    (∀ (b2l : PyVal → Int) (fd gs : Int → Int) (n N : Int) (splits : Nat),
      homomorphic_blinding_rsa b2l fd gs (.int n) N splits =
        hbr_core fd gs (b2l (.int n)) N splits) ∧
    (∀ (b2l : PyVal → Int) (fd gs : Int → Int) (N : Int) (bs : List Nat) (splits : Nat),
      homomorphic_blinding_rsa b2l fd gs (.bytes bs) N splits =
        hbr_core fd gs (b2l (.bytes bs)) N splits) :=
  ⟨fun _ => rfl, fun _ => rfl, fun _ _ => rfl, fun _ _ => rfl, fun _ _ _ _ _ _ => rfl,
    fun _ _ _ _ _ _ => rfl⟩

/-! ## C3: Tonelli–Shanks.  Cast bridges between the `Int` embedding and
`ZMod p`. -/

theorem pypow3_ok (x e n : Int) (hn : n ≠ 0) (he : ¬e < 0) :
    pypow3 x e n = .ok ((x ^ e.toNat).fmod n) := by
  unfold pypow3
  rw [if_neg hn, if_neg he]

theorem cast_fmod_zmod (x : Int) (p : ℕ) (hp : 0 < p) :
    ((x.fmod (p : Int) : Int) : ZMod p) = (x : ZMod p) := by
  rw [Int.fmod_eq_emod _ (by exact_mod_cast Nat.zero_le p)]
  exact ZMod.intCast_mod x p

theorem zmod_cast_inj (p : ℕ) {x y : Int} (hx0 : 0 ≤ x) (hxp : x < p) (hy0 : 0 ≤ y)
    (hyp : y < p) (h : (x : ZMod p) = (y : ZMod p)) : x = y := by
  have h' := (ZMod.intCast_eq_intCast_iff x y p).mp h
  unfold Int.ModEq at h'
  rwa [Int.emod_eq_of_lt hx0 hxp, Int.emod_eq_of_lt hy0 hyp] at h'

theorem zmod_pm1_cast (p : ℕ) : (((p : Int) - 1 : Int) : ZMod p) = -1 := by
  push_cast [ZMod.natCast_self]
  ring

theorem fdiv_two_cast (p : ℕ) (hp : 1 ≤ p) :
    ((p : Int) - 1).fdiv 2 = (((p - 1) / 2 : ℕ) : Int) := by
  have h1 : ((p : Int) - 1) = ((p - 1 : ℕ) : Int) := by omega
  rw [h1, Int.fdiv_eq_ediv _ (by norm_num)]
  exact (Int.ofNat_div (p - 1) 2).symm

/-- Closed form of `legendre_symbol` over a natural modulus. -/
theorem legendre_eq (a : Int) (p : ℕ) (hp : 1 ≤ p) :
    legendre_symbol a (p : Int) =
      .ok (if (a ^ ((p - 1) / 2)).fmod p = (p : Int) - 1 then -1
           else (a ^ ((p - 1) / 2)).fmod p) := by
  show (pypow3 a (((p : Int) - 1).fdiv 2) p >>= fun ls =>
    pure (if ls = (p : Int) - 1 then -1 else ls)) = _
  rw [fdiv_two_cast p hp,
    pypow3_ok a _ _ (by exact_mod_cast (by omega : p ≠ 0)) (by omega),
    except_bind_ok, Int.toNat_natCast]
  rfl

theorem legendre_one_pow (a : Int) (p : ℕ) (hp : 2 < p)
    (h : legendre_symbol a (p : Int) = .ok 1) :
    (a : ZMod p) ^ ((p - 1) / 2) = 1 := by
  rw [legendre_eq a p (by omega)] at h
  by_cases hc : (a ^ ((p - 1) / 2)).fmod p = (p : Int) - 1
  · rw [if_pos hc] at h
    exact absurd (Except.ok.inj h) (by norm_num)
  · rw [if_neg hc] at h
    have hv := Except.ok.inj h
    have hcast := congrArg (fun z : Int => (z : ZMod p)) hv
    simpa [cast_fmod_zmod _ p (by omega : 0 < p)] using hcast

theorem legendre_neg_one_pow (a : Int) (p : ℕ) (hp : 2 < p)
    (h : legendre_symbol a (p : Int) = .ok (-1)) :
    (a : ZMod p) ^ ((p - 1) / 2) = -1 := by
  rw [legendre_eq a p (by omega)] at h
  by_cases hc : (a ^ ((p - 1) / 2)).fmod p = (p : Int) - 1
  · have hcast := congrArg (fun z : Int => (z : ZMod p)) hc
    simp only [cast_fmod_zmod _ p (by omega : 0 < p), Int.cast_pow] at hcast
    rw [hcast, zmod_pm1_cast]
  · rw [if_neg hc] at h
    have hv := Except.ok.inj h
    have hppos : (0 : Int) < (p : Int) := by omega
    have hnn := Int.fmod_nonneg' (a ^ ((p - 1) / 2)) hppos
    omega

theorem legendre_of_pow_neg_one (a : Int) (p : ℕ) (hp : 2 < p)
    (h : (a : ZMod p) ^ ((p - 1) / 2) = -1) :
    legendre_symbol a (p : Int) = .ok (-1) := by
  rw [legendre_eq a p (by omega)]
  have hppos : (0 : Int) < p := by exact_mod_cast (by omega : 0 < p)
  have hc : (a ^ ((p - 1) / 2)).fmod p = (p : Int) - 1 := by
    apply zmod_cast_inj p (Int.fmod_nonneg' _ hppos) (Int.fmod_lt_of_pos _ hppos)
      (by omega) (by omega)
    rw [zmod_pm1_cast]
    simpa [cast_fmod_zmod _ p (by omega : 0 < p)] using h
  rw [if_pos hc]

/-- `factorTwos` extracts the full power of two: with enough fuel, a
positive `s₀` is decomposed as `s' · 2^k` with `s'` odd. -/
theorem factorTwos_spec :
    ∀ (fuel : ℕ) (s : Int) (e0 : ℕ), 0 < s → s.toNat < fuel →
      ∃ s' k, factorTwos fuel s e0 = (s', e0 + k) ∧ s = s' * 2 ^ k ∧
        ¬(2 ∣ s') ∧ 0 < s' := by
  intro fuel
  induction fuel with
  | zero => intro s e0 _ h; exact absurd h (Nat.not_lt_zero _)
  | succ fuel ih =>
    intro s e0 hs hlt
    by_cases hev : s.fmod 2 = 0
    · have hdvd : (2 : Int) ∣ s := by
        apply Int.dvd_of_emod_eq_zero
        rwa [← Int.fmod_eq_emod _ (by norm_num)]
      have hfd : s.fdiv 2 = s / 2 := Int.fdiv_eq_ediv _ (by norm_num)
      have hhalf : s = 2 * (s / 2) := (Int.mul_ediv_cancel' hdvd).symm
      have hpos2 : 0 < s / 2 := by omega
      have hlt2 : (s / 2).toNat < fuel := by omega
      obtain ⟨s', k, hft, heq, hodd, hpos'⟩ := ih (s / 2) (e0 + 1) hpos2 hlt2
      refine ⟨s', k + 1, ?_, ?_, hodd, hpos'⟩
      · show factorTwos (fuel + 1) s e0 = _
        rw [show factorTwos (fuel + 1) s e0 = factorTwos fuel (s.fdiv 2) (e0 + 1) from by
          rw [factorTwos, if_pos hev], hfd, hft]
        congr 1
        omega
      · rw [hhalf, heq]
        ring
    · refine ⟨s, 0, ?_, by ring, ?_, hs⟩
      · rw [factorTwos, if_neg hev, Nat.add_zero]
      · intro hdvd
        have := Int.emod_eq_zero_of_dvd hdvd
        rw [← Int.fmod_eq_emod _ (by norm_num)] at this
        exact hev this

/-- The inner scan returns the least `j ≥ m` (relative to the squaring
chain) at which the running value reaches `1` — or, with the Python
`for`-variable quirk, the last index when the chain never reaches `1`
within the fuel; under the invariant an index always exists. -/
theorem tsScanGo_spec (p : ℕ) (hp : 1 < p) (β : ZMod p) :
    ∀ (fuel : ℕ) (t : Int) (m : ℕ), 0 ≤ t → t < p →
      (t : ZMod p) = β ^ (2 ^ m) →
      (∀ j < m, β ^ (2 ^ j) ≠ 1) →
      (∃ j, m ≤ j ∧ j < m + fuel ∧ β ^ (2 ^ j) = 1) →
      β ^ (2 ^ tsScanGo p fuel t m) = 1 ∧
        (∀ j < tsScanGo p fuel t m, β ^ (2 ^ j) ≠ 1) ∧
        tsScanGo p fuel t m < m + fuel := by
  intro fuel
  induction fuel with
  | zero =>
    intro t m _ _ _ _ hex
    obtain ⟨j, hj1, hj2, _⟩ := hex
    omega
  | succ fuel ih =>
    intro t m ht0 htp hcast hpre hex
    by_cases h1 : t = 1
    · have hm : β ^ (2 ^ m) = 1 := by
        rw [← hcast, h1, Int.cast_one]
      rw [show tsScanGo p (fuel + 1) t m = m from by rw [tsScanGo, if_pos h1]]
      exact ⟨hm, hpre, by omega⟩
    · have hne : β ^ (2 ^ m) ≠ 1 := by
        intro hcon
        apply h1
        apply zmod_cast_inj p ht0 htp (by norm_num) (by exact_mod_cast hp)
        rw [hcast, hcon, Int.cast_one]
      have hstep : tsScanGo p (fuel + 1) t m = tsScanGo p fuel ((t * t).fmod p) (m + 1) := by
        rw [tsScanGo, if_neg h1]
      have hppos : (0 : Int) < (p : Int) := by omega
      have hcast' : (((t * t).fmod p : Int) : ZMod p) = β ^ (2 ^ (m + 1)) := by
        rw [cast_fmod_zmod _ p (by omega), Int.cast_mul, hcast, ← pow_add]
        congr 1
        omega
      have hpre' : ∀ j < m + 1, β ^ (2 ^ j) ≠ 1 := by
        intro j hj
        rcases Nat.lt_succ_iff_lt_or_eq.mp hj with hj' | rfl
        · exact hpre j hj'
        · exact hne
      have hex' : ∃ j, m + 1 ≤ j ∧ j < (m + 1) + fuel ∧ β ^ (2 ^ j) = 1 := by
        obtain ⟨j, hj1, hj2, hj3⟩ := hex
        refine ⟨j, ?_, by omega, hj3⟩
        rcases Nat.eq_or_lt_of_le hj1 with rfl | h
        · exact absurd hj3 hne
        · exact h
      have hres := ih ((t * t).fmod p) (m + 1) (Int.fmod_nonneg' _ hppos)
        (Int.fmod_lt_of_pos _ hppos) hcast' hpre' hex'
      rw [hstep]
      exact ⟨hres.1, hres.2.1, by omega⟩

theorem tsScan_spec (p : ℕ) (hp : 1 < p) (r : ℕ) (hr : 1 ≤ r) (b : Int)
    (hb0 : 0 ≤ b) (hbp : b < p) (hex : ((b : ZMod p)) ^ (2 ^ (r - 1)) = 1) :
    (b : ZMod p) ^ (2 ^ tsScan p r b) = 1 ∧
      (∀ j < tsScan p r b, (b : ZMod p) ^ (2 ^ j) ≠ 1) ∧
      tsScan p r b ≤ r - 1 := by
  have hr0 : r ≠ 0 := by omega
  have hgo := tsScanGo_spec p hp (b : ZMod p) r b 0 hb0 hbp
    (by rw [pow_zero, pow_one]) (by intro j hj; omega)
    ⟨r - 1, Nat.zero_le _, by omega, hex⟩
  rw [show tsScan p r b = tsScanGo p r b 0 from by rw [tsScan, if_neg hr0]]
  exact ⟨hgo.1, hgo.2.1, by omega⟩

theorem tsLoop_succ (p : Int) (fuel : ℕ) (x b g : Int) (r : ℕ) :
    tsLoop p (fuel + 1) x b g r =
      if tsScan p r b = 0 then .ok x
      else
        tsLoop p fuel ((x * ((g ^ (2 ^ (r - tsScan p r b - 1))).fmod p)).fmod p)
          ((b * ((((g ^ (2 ^ (r - tsScan p r b - 1))).fmod p) *
            ((g ^ (2 ^ (r - tsScan p r b - 1))).fmod p)).fmod p)).fmod p)
          ((((g ^ (2 ^ (r - tsScan p r b - 1))).fmod p) *
            ((g ^ (2 ^ (r - tsScan p r b - 1))).fmod p)).fmod p)
          (tsScan p r b) := rfl

/-- The Tonelli–Shanks main-loop invariant: if `x² = a·b` in `ZMod p`, `b`
has order dividing `2^(r-1)` and `g^(2^(r-1)) = -1`, the loop returns a
square root of `a` mod `p`. -/
theorem tsLoop_ok (p : ℕ) [Fact p.Prime] (hp2 : 2 < p) (a : Int) :
    ∀ (fuel r : ℕ) (x b g : Int), r < fuel → 1 ≤ r →
      0 ≤ x → x < p → 0 ≤ b → b < p → 0 ≤ g → g < p →
      (x : ZMod p) ^ 2 = (a : ZMod p) * (b : ZMod p) →
      (b : ZMod p) ^ (2 ^ (r - 1)) = 1 →
      (g : ZMod p) ^ (2 ^ (r - 1)) = -1 →
      ∃ root, tsLoop (p : Int) fuel x b g r = .ok root ∧ 0 ≤ root ∧ root < p ∧
        (root : ZMod p) ^ 2 = (a : ZMod p) := by
  intro fuel
  induction fuel with
  | zero => intro r x b g hrf; exact absurd hrf (Nat.not_lt_zero r)
  | succ fuel ih =>
    intro r x b g hrf hr1 hx0 hxp hb0 hbp hg0 hgp hinv1 hinv2 hinv3
    obtain ⟨hscan1, hscan2, hscan3⟩ := tsScan_spec p (by omega) r hr1 b hb0 hbp hinv2
    set m := tsScan (p : Int) r b with hmdef
    rw [tsLoop_succ]
    by_cases hm0 : m = 0
    · rw [if_pos hm0]
      have hb1 : (b : ZMod p) = 1 := by
        have h := hscan1
        rwa [hm0, pow_zero, pow_one] at h
      refine ⟨x, rfl, hx0, hxp, ?_⟩
      rw [hinv1, hb1, mul_one]
    · rw [if_neg hm0]
      have hm1 : 1 ≤ m := by omega
      have hmr : m ≤ r - 1 := hscan3
      have hppos : (0 : Int) < (p : Int) := by omega
      have hrm : r - m = (r - m - 1) + 1 := by omega
      have hpow2 : (2 : ℕ) ^ (r - m - 1) + 2 ^ (r - m - 1) = 2 ^ (r - m) := by
        calc (2 : ℕ) ^ (r - m - 1) + 2 ^ (r - m - 1) = 2 ^ ((r - m - 1) + 1) := by
              rw [pow_succ]
              ring
          _ = 2 ^ (r - m) := by rw [← hrm]
      generalize hgs : (g ^ (2 ^ (r - m - 1))).fmod (p : Int) = gsi
      generalize hg2 : (gsi * gsi).fmod (p : Int) = g2i
      generalize hx2 : (x * gsi).fmod (p : Int) = x2i
      generalize hb2 : (b * g2i).fmod (p : Int) = b2i
      have hgs_cast : ((gsi : Int) : ZMod p) = (g : ZMod p) ^ (2 ^ (r - m - 1)) := by
        rw [← hgs, cast_fmod_zmod _ p (by omega), Int.cast_pow]
      have hg2_cast : ((g2i : Int) : ZMod p) = (g : ZMod p) ^ (2 ^ (r - m)) := by
        rw [← hg2, cast_fmod_zmod _ p (by omega), Int.cast_mul, hgs_cast, ← pow_add]
        rw [hpow2]
      have hx2_cast : ((x2i : Int) : ZMod p)
          = (x : ZMod p) * (g : ZMod p) ^ (2 ^ (r - m - 1)) := by
        rw [← hx2, cast_fmod_zmod _ p (by omega), Int.cast_mul, hgs_cast]
      have hb2_cast : ((b2i : Int) : ZMod p)
          = (b : ZMod p) * (g : ZMod p) ^ (2 ^ (r - m)) := by
        rw [← hb2, cast_fmod_zmod _ p (by omega), Int.cast_mul, hg2_cast]
      have hBm : (b : ZMod p) ^ (2 ^ (m - 1)) = -1 := by
        have hm' : m = (m - 1) + 1 := by omega
        have hexp : 2 ^ (m - 1) + 2 ^ (m - 1) = 2 ^ m := by
          calc (2 : ℕ) ^ (m - 1) + 2 ^ (m - 1) = 2 ^ ((m - 1) + 1) := by
                rw [pow_succ]
                ring
            _ = 2 ^ m := by rw [← hm']
        have hsq : (b : ZMod p) ^ (2 ^ (m - 1)) * (b : ZMod p) ^ (2 ^ (m - 1)) = 1 := by
          rw [← pow_add, hexp]
          exact hscan1
        rcases mul_self_eq_one_iff.mp hsq with h1 | h1
        · exact absurd h1 (hscan2 (m - 1) (by omega))
        · exact h1
      have hG2m : ((g : ZMod p) ^ (2 ^ (r - m))) ^ (2 ^ (m - 1)) = -1 := by
        rw [← pow_mul, show 2 ^ (r - m) * 2 ^ (m - 1) = 2 ^ (r - 1) from by
          rw [← pow_add]
          congr 1
          omega]
        exact hinv3
      have hnew1 : ((x2i : Int) : ZMod p) ^ 2 = (a : ZMod p) * ((b2i : Int) : ZMod p) := by
        rw [hx2_cast, hb2_cast, mul_pow, hinv1,
          show ((g : ZMod p) ^ (2 ^ (r - m - 1))) ^ 2 = (g : ZMod p) ^ (2 ^ (r - m)) from by
            rw [← pow_mul]
            congr 1
            rw [← hpow2]
            ring]
        ring
      have hnew2 : ((b2i : Int) : ZMod p) ^ (2 ^ (m - 1)) = 1 := by
        rw [hb2_cast, mul_pow, hBm, hG2m]
        ring
      have hnew3 : ((g2i : Int) : ZMod p) ^ (2 ^ (m - 1)) = -1 := by
        rw [hg2_cast]
        exact hG2m
      exact ih m x2i b2i g2i (by omega) hm1
        (hx2 ▸ Int.fmod_nonneg' _ hppos) (hx2 ▸ Int.fmod_lt_of_pos _ hppos)
        (hb2 ▸ Int.fmod_nonneg' _ hppos) (hb2 ▸ Int.fmod_lt_of_pos _ hppos)
        (hg2 ▸ Int.fmod_nonneg' _ hppos) (hg2 ▸ Int.fmod_lt_of_pos _ hppos)
        hnew1 hnew2 hnew3

/-- The linear search for a quadratic non-residue succeeds whenever one is
reachable within the fuel. -/
theorem findNonResidue_spec (p : ℕ) (hp : 2 < p) :
    ∀ (fuel : ℕ) (start : Int),
      (∃ j : ℕ, j < fuel ∧ legendre_symbol (start + j) (p : Int) = .ok (-1)) →
      ∃ n, findNonResidue fuel start (p : Int) = .ok n ∧
        legendre_symbol n (p : Int) = .ok (-1) := by
  intro fuel
  induction fuel with
  | zero =>
    intro start h
    obtain ⟨j, hj, _⟩ := h
    omega
  | succ fuel ih =>
    intro start hex
    by_cases hcase : legendre_symbol start (p : Int) = .ok (-1)
    · refine ⟨start, ?_, hcase⟩
      show (legendre_symbol start (p : Int) >>= fun lg =>
        if lg ≠ -1 then findNonResidue fuel (start + 1) (p : Int) else pure start) = _
      rw [hcase, except_bind_ok, if_neg (by simp)]
      rfl
    · have hleg := legendre_eq start p (by omega)
      obtain ⟨j, hj, hlegj⟩ := hex
      have hj0 : j ≠ 0 := by
        intro h
        apply hcase
        have : start + ((0 : ℕ) : Int) = start := by omega
        rw [h, this] at hlegj
        exact hlegj
      have hvne : (if (start ^ ((p - 1) / 2)).fmod p = (p : Int) - 1 then (-1 : Int)
          else (start ^ ((p - 1) / 2)).fmod p) ≠ -1 := by
        intro h
        apply hcase
        rw [hleg, h]
      obtain ⟨n, hn, hnleg⟩ := ih (start + 1)
        ⟨j - 1, by omega, by
          have harg : start + 1 + ((j - 1 : ℕ) : Int) = start + (j : Int) := by omega
          rw [harg]
          exact_mod_cast hlegj⟩
      refine ⟨n, ?_, hnleg⟩
      show (legendre_symbol start (p : Int) >>= fun lg =>
        if lg ≠ -1 then findNonResidue fuel (start + 1) (p : Int) else pure start) = _
      rw [hleg, except_bind_ok, if_pos hvne]
      exact hn

/-- An odd prime admits a quadratic non-residue in `[2, p)`, located by the
Legendre symbol. -/
theorem exists_nonresidue_legendre (p : ℕ) [Fact p.Prime] (hp : 2 < p) :
    ∃ j : ℕ, j < p ∧ legendre_symbol ((2 : Int) + j) (p : Int) = .ok (-1) := by
  obtain ⟨u, hu⟩ := FiniteField.exists_nonsquare (F := ZMod p)
    (by rw [ZMod.ringChar_zmod_n]; omega)
  have hu0 : u ≠ 0 := by
    intro h
    exact hu (h ▸ ⟨0, by ring⟩)
  have hpow : u ^ (p / 2) = -1 := by
    rcases ZMod.pow_div_two_eq_neg_one_or_one p hu0 with h | h
    · exact absurd ((ZMod.euler_criterion p hu0).mpr h) hu
    · exact h
  haveI : NeZero p := ⟨by omega⟩
  have hwlt : u.val < p := ZMod.val_lt u
  have hw0 : u.val ≠ 0 := by
    intro h
    apply hu0
    rw [← ZMod.natCast_zmod_val u, h, Nat.cast_zero]
  have hw1 : u.val ≠ 1 := by
    intro h
    apply hu
    have hu1 : u = 1 := by rw [← ZMod.natCast_zmod_val u, h, Nat.cast_one]
    exact hu1 ▸ ⟨1, by ring⟩
  refine ⟨u.val - 2, by omega, ?_⟩
  have harg : (2 : Int) + ((u.val - 2 : ℕ) : Int) = ((u.val : ℕ) : Int) := by omega
  rw [harg]
  apply legendre_of_pow_neg_one _ p hp
  have hodd : p % 2 = 1 :=
    Nat.odd_iff.mp ((Fact.out : p.Prime).odd_of_ne_two (by omega))
  rw [Int.cast_natCast, ZMod.natCast_zmod_val, show (p - 1) / 2 = p / 2 from by omega]
  exact hpow

theorem fdiv_cast_nat (m k : ℕ) : ((m : Int)).fdiv ((k : ℕ) : Int) = ((m / k : ℕ) : Int) := by
  rw [Int.fdiv_eq_ediv _ (Int.natCast_nonneg k)]
  exact (Int.ofNat_div m k).symm

theorem fmod_cast_nat (m k : ℕ) : ((m : Int)).fmod ((k : ℕ) : Int) = ((m % k : ℕ) : Int) :=
  (Int.ofNat_fmod m k).symm

/-- Tonelli–Shanks correctness: for an odd prime `p` and a reduced residue
`a` with `legendre_symbol(a, p) = 1`, `modular_sqrt` returns a square root
of `a` mod `p`. -/
theorem modular_sqrt_root (p : ℕ) (hp : p.Prime) (hp2 : p ≠ 2) (a : Int)
    (ha0 : 0 ≤ a) (hap : a < p) (hleg : legendre_symbol a (p : Int) = .ok 1) :
    ∃ x, modular_sqrt a (p : Int) = .ok x ∧ 0 ≤ x ∧ x < p ∧ (x ^ 2).fmod p = a := by
  haveI : Fact p.Prime := ⟨hp⟩
  have hp3 : 2 < p := lt_of_le_of_ne hp.two_le (Ne.symm hp2)
  have hodd : p % 2 = 1 := Nat.odd_iff.mp (hp.odd_of_ne_two hp2)
  have hppos : (0 : Int) < (p : Int) := by omega
  have hcastpow : (a : ZMod p) ^ ((p - 1) / 2) = 1 := legendre_one_pow a p hp3 hleg
  have hane : (a : ZMod p) ≠ 0 := by
    intro h
    rw [h, zero_pow (by omega : (p - 1) / 2 ≠ 0)] at hcastpow
    exact zero_ne_one hcastpow
  have hanz : a ≠ 0 := by
    intro h
    apply hane
    rw [h, Int.cast_zero]
  have hpne2 : (p : Int) ≠ 2 := by omega
  have hconv : ∀ x : Int, 0 ≤ x → x < p → (x : ZMod p) ^ 2 = (a : ZMod p) →
      (x ^ 2).fmod (p : Int) = a := by
    intro x h0 h1 hsq
    apply zmod_cast_inj p (Int.fmod_nonneg' _ hppos) (Int.fmod_lt_of_pos _ hppos) ha0 hap
    rw [cast_fmod_zmod _ p (by omega), Int.cast_pow, hsq]
  by_cases h34 : p % 4 = 3
  · have hcond : ((p : Int)).fmod 4 = 3 := by
      have h := fmod_cast_nat p 4
      rw [h34] at h
      exact_mod_cast h
    have hexp : (((p : Int) + 1).fdiv 4).toNat = (p + 1) / 4 := by
      rw [show ((p : Int) + 1) = ((p + 1 : ℕ) : Int) from by omega,
        show ((4 : Int)) = (((4 : ℕ) : ℕ) : Int) from rfl, fdiv_cast_nat, Int.toNat_natCast]
    have hstep : modular_sqrt a (p : Int) = .ok ((a ^ ((p + 1) / 4)).fmod (p : Int)) := by
      unfold modular_sqrt
      rw [hleg, except_bind_ok, if_neg (by simp : ¬((1 : Int) ≠ 1)), if_neg hanz,
        if_neg hpne2, if_pos hcond,
        pypow3_ok a _ _ (by omega)
          (by
            have := Int.fdiv_nonneg (a := (p : Int) + 1) (b := 4) (by omega) (by norm_num)
            omega),
        hexp]
    refine ⟨(a ^ ((p + 1) / 4)).fmod (p : Int), hstep, Int.fmod_nonneg' _ hppos,
      Int.fmod_lt_of_pos _ hppos, hconv _ (Int.fmod_nonneg' _ hppos)
        (Int.fmod_lt_of_pos _ hppos) ?_⟩
    rw [cast_fmod_zmod _ p (by omega), Int.cast_pow, ← pow_mul,
      show (p + 1) / 4 * 2 = (p - 1) / 2 + 1 from by omega, pow_succ, hcastpow, one_mul]
  · have h41 : p % 4 = 1 := by omega
    have hcond : ¬(((p : Int)).fmod 4 = 3) := by
      have h := fmod_cast_nat p 4
      rw [h41] at h
      have h' : ((p : Int)).fmod 4 = 1 := by exact_mod_cast h
      omega
    obtain ⟨s, k, hft, hdecomp, hsodd, hspos⟩ := factorTwos_spec (((p : Int) - 1).toNat + 1)
      ((p : Int) - 1) 0 (by omega) (by omega)
    rw [Nat.zero_add] at hft
    have hseq : s = ((s.toNat : ℕ) : Int) := (Int.toNat_of_nonneg (le_of_lt hspos)).symm
    have hdecompN : p - 1 = s.toNat * 2 ^ k := by
      have h1 : ((p - 1 : ℕ) : Int) = s * 2 ^ k := by
        rw [← hdecomp]
        omega
      rw [hseq] at h1
      have h2 : ((p - 1 : ℕ) : Int) = ((s.toNat * 2 ^ k : ℕ) : Int) := by
        rw [h1]
        push_cast
        ring
      exact_mod_cast h2
    have hsoddN : s.toNat % 2 = 1 := by
      rcases Nat.even_or_odd s.toNat with he | ho
      · exfalso
        apply hsodd
        obtain ⟨t, ht⟩ := he
        refine ⟨(t : Int), ?_⟩
        rw [hseq, ht]
        push_cast
        ring
      · exact Nat.odd_iff.mp ho
    have hk2 : 2 ≤ k := by
      have h4 : 4 ∣ p - 1 := by omega
      rcases k with _ | k'
      · rw [pow_zero, Nat.mul_one] at hdecompN
        omega
      · rcases k' with _ | k''
        · rw [pow_one] at hdecompN
          omega
        · omega
    have hhalf : (p - 1) / 2 = s.toNat * 2 ^ (k - 1) := by
      have hM : p - 1 = (s.toNat * 2 ^ (k - 1)) * 2 := by
        rw [hdecompN, show (2 : ℕ) ^ k = 2 ^ (k - 1) * 2 from by
          rw [← pow_succ]
          congr 1
          omega]
        ring
      omega
    obtain ⟨n, hfind, hnleg⟩ := findNonResidue_spec p hp3 p 2 (exists_nonresidue_legendre p hp3)
    have hnpow : (n : ZMod p) ^ ((p - 1) / 2) = -1 := legendre_neg_one_pow n p hp3 hnleg
    have hsnn : ¬s < 0 := by omega
    have hs1 : ((s + 1).fdiv 2).toNat = (s.toNat + 1) / 2 := by
      rw [hseq, show (((s.toNat : ℕ) : Int) + 1) = ((s.toNat + 1 : ℕ) : Int) from by
          push_cast
          ring,
        show ((2 : Int)) = (((2 : ℕ) : ℕ) : Int) from rfl, fdiv_cast_nat, Int.toNat_natCast,
      Int.toNat_natCast]
    have hinv1 : (((a ^ ((s.toNat + 1) / 2)).fmod (p : Int) : Int) : ZMod p) ^ 2
        = (a : ZMod p) * (((a ^ s.toNat).fmod (p : Int) : Int) : ZMod p) := by
      rw [cast_fmod_zmod _ p (by omega), cast_fmod_zmod _ p (by omega), Int.cast_pow,
        Int.cast_pow, ← pow_mul, show (s.toNat + 1) / 2 * 2 = s.toNat + 1 from by omega,
        pow_succ]
      ring
    have hinv2 : (((a ^ s.toNat).fmod (p : Int) : Int) : ZMod p) ^ (2 ^ (k - 1)) = 1 := by
      rw [cast_fmod_zmod _ p (by omega), Int.cast_pow, ← pow_mul, ← hhalf]
      exact hcastpow
    have hinv3 : (((n ^ s.toNat).fmod (p : Int) : Int) : ZMod p) ^ (2 ^ (k - 1)) = -1 := by
      rw [cast_fmod_zmod _ p (by omega), Int.cast_pow, ← pow_mul, ← hhalf]
      exact hnpow
    obtain ⟨root, hloop, hr0, hrp, hrsq⟩ := tsLoop_ok p hp3 a (k + 1) k
      ((a ^ ((s.toNat + 1) / 2)).fmod (p : Int)) ((a ^ s.toNat).fmod (p : Int))
      ((n ^ s.toNat).fmod (p : Int)) (by omega) (by omega)
      (Int.fmod_nonneg' _ hppos) (Int.fmod_lt_of_pos _ hppos)
      (Int.fmod_nonneg' _ hppos) (Int.fmod_lt_of_pos _ hppos)
      (Int.fmod_nonneg' _ hppos) (Int.fmod_lt_of_pos _ hppos)
      hinv1 hinv2 hinv3
    have hms : modular_sqrt a (p : Int)
        = tsLoop (p : Int) (k + 1) ((a ^ ((s.toNat + 1) / 2)).fmod (p : Int))
            ((a ^ s.toNat).fmod (p : Int)) ((n ^ s.toNat).fmod (p : Int)) k := by
      unfold modular_sqrt
      rw [hleg, except_bind_ok, if_neg (by simp : ¬((1 : Int) ≠ 1)), if_neg hanz,
        if_neg hpne2, if_neg hcond, hft]
      dsimp only
      rw [Int.toNat_natCast, hfind, except_bind_ok,
        pypow3_ok a _ _ (by omega)
          (by
            have := Int.fdiv_nonneg (a := s + 1) (b := 2) (by omega) (by norm_num)
            omega),
        except_bind_ok, hs1,
        pypow3_ok a s _ (by omega) hsnn, except_bind_ok,
        pypow3_ok n s _ (by omega) hsnn, except_bind_ok]
    refine ⟨root, ?_, hr0, hrp, hconv root hr0 hrp hrsq⟩
    rw [hms]
    exact hloop

/-- For `p = 2` the Legendre symbol of the source is constantly `-1`
(`pow(a, 0, 2) = 1 = p - 1`), so `modular_sqrt(·, 2)` always returns `0`
and the dead `p == 2` branch is never reached. -/
theorem legendre_two (a : Int) : legendre_symbol a (((2 : ℕ) : ℕ) : Int) = .ok (-1) := by
  rw [legendre_eq a 2 (by norm_num), show ((2 : ℕ) - 1) / 2 = 0 from by norm_num, pow_zero,
    show (1 : Int).fmod (((2 : ℕ) : ℕ) : Int) = 1 from by decide,
    if_pos (by norm_num : (1 : Int) = (((2 : ℕ) : ℕ) : Int) - 1)]

theorem modular_sqrt_neg_one (a p : Int) (h : legendre_symbol a p = .ok (-1)) :
    modular_sqrt a p = .ok 0 := by
  unfold modular_sqrt
  rw [h, except_bind_ok, if_pos (by norm_num : ((-1 : Int) ≠ 1))]
  rfl

theorem modular_sqrt_zero (p : ℕ) (hp : p.Prime) : modular_sqrt 0 (p : Int) = .ok 0 := by
  by_cases h2 : p = 2
  · subst h2
    exact modular_sqrt_neg_one 0 _ (legendre_two 0)
  · have hp3 : 2 < p := lt_of_le_of_ne hp.two_le (Ne.symm h2)
    have hleg : legendre_symbol 0 (p : Int) = .ok 0 := by
      rw [legendre_eq 0 p (by omega), zero_pow (by omega : (p - 1) / 2 ≠ 0),
        Int.zero_fmod, if_neg (by omega : ¬(0 : Int) = (p : Int) - 1)]
    unfold modular_sqrt
    rw [hleg, except_bind_ok, if_pos (by norm_num : ((0 : Int) ≠ 1))]
    rfl

/-- C3 counterexample (to the claim as stated, which does not require the
residue to be reduced): `a = 8`, `p = 7` has `legendre_symbol(8, 7) = 1`,
but `modular_sqrt(8, 7) = 1` and `1² mod 7 = 1 ≠ 8`. -/
theorem modular_sqrt_unreduced_counterexample :
    Nat.Prime 7 ∧ legendre_symbol 8 7 = .ok 1 ∧ modular_sqrt 8 7 = .ok 1 ∧
      ((1 : Int) ^ 2).fmod 7 ≠ 8 :=
  ⟨by norm_num, rfl, rfl, by decide⟩

/-- C3 (amended: the first clause additionally requires `0 ≤ a < p`, since
for an unreduced or negative `a` the returned root squares to `a mod p`,
not to `a` itself): for every prime `p`, (1) whenever
`legendre_symbol(a, p) = 1` and `0 ≤ a < p`, `modular_sqrt(a, p)` squared
mod `p` equals `a`; (2) `modular_sqrt(a, p)` returns `0` whenever
`legendre_symbol(a, p) = -1` or `a = 0`; and concretely
`modular_sqrt(4, 7)` squared mod `7` equals `4`. -/
theorem modular_sqrt_spec :
    (∀ p : ℕ, p.Prime → ∀ a : Int, 0 ≤ a → a < p →
      legendre_symbol a (p : Int) = .ok 1 →
      ∃ x, modular_sqrt a (p : Int) = .ok x ∧ (x ^ 2).fmod p = a) ∧
    (∀ p : ℕ, p.Prime → ∀ a : Int,
      (legendre_symbol a (p : Int) = .ok (-1) → modular_sqrt a (p : Int) = .ok 0) ∧
      (a = 0 → modular_sqrt a (p : Int) = .ok 0)) ∧
    (modular_sqrt 4 7).map (fun x => (x ^ 2).fmod 7) = .ok 4 := by
  refine ⟨?_, ?_, rfl⟩
  · intro p hp a ha0 hap hleg
    by_cases h2 : p = 2
    · subst h2
      rw [legendre_two a] at hleg
      exact absurd (Except.ok.inj hleg) (by norm_num)
    · obtain ⟨x, hx, _, _, hsq⟩ := modular_sqrt_root p hp h2 a ha0 hap hleg
      exact ⟨x, hx, hsq⟩
  · intro p hp a
    refine ⟨modular_sqrt_neg_one a _, fun h => ?_⟩
    subst h
    exact modular_sqrt_zero p hp

theorem modular_sqrt_spec_witness :
    Nat.Prime 13 ∧ (0 : Int) ≤ 10 ∧ (10 : Int) < ((13 : ℕ) : Int) ∧
      ∃ x, modular_sqrt 10 ((13 : ℕ) : Int) = .ok x ∧
        (x ^ 2).fmod ((13 : ℕ) : Int) = 10 :=
  ⟨by norm_num, by decide, by decide,
    modular_sqrt_spec.1 13 (by norm_num) 10 (by decide) (by decide) (by rfl)⟩

end RsaCommons
